import Mathlib

/-!
Verification of the query-acceleration core of the `analyzething` path finder.

The Python modules `core/algorithms.py`, `core/landmarks.py`, `core/pathfinder.py`
and `core/heuristics.py` are shallowly embedded below:

* graphs are association lists `Adj = List (Nat × List (Nat × ℤ))`, mirroring the
  Python `dict` from node id to an ordered list of `(neighbor, weight)` pairs
  (insertion order is kept, as Python dicts keep it);
* `float` edge weights are modelled by `ℤ` (exact for the whole-number weights
  the claims exercise); the value `float("inf")` is modelled
  by `none` in an `Option ℤ`;
* each `while` loop of the source becomes a step function driven by the generic
  fuelled loop runner `runLoop`; a `KeyError` raised by a `dict[...]` access
  becomes the explicit error value `SErr.keyError`, and running out of fuel
  becomes `SErr.fuelOut` (which a terminating Python run never hits once the
  fuel exceeds the loop's iteration count);
* the `heapq` priority queue is modelled by a plain list whose pop operation
  `selectMin` extracts the least element in the full lexicographic tuple order
  used by Python, which is extensionally the pop order of the binary heap.
-/

namespace AnalyzeThing

/-- Errors a Python run of the embedded code can raise: `keyError` models a
`KeyError` from a `dict[...]` access, `fuelOut` is the artefact of the fuelled
embedding (a run whose loop count exceeds the supplied fuel). -/
inductive SErr where
  | keyError : SErr
  | fuelOut : SErr
deriving DecidableEq, Repr

/-- Result of one search: `(path, cost)` where the path is `none` for
"unreachable" and the cost is `none` for `float("inf")`. -/
abbrev SRes := Option (List Nat) × Option ℤ

/-- Adjacency structure: node ↦ ordered list of (neighbor, weight) pairs. -/
abbrev Adj := List (Nat × List (Nat × ℤ))

/-- `alookup m k` is Python `m.get(k)` on a dict represented as an association
list (first binding wins; dicts built by the embedded code never repeat keys). -/
def alookup {β : Type} : List (Nat × β) → Nat → Option β
  | [], _ => none
  | (k, v) :: rest, key => if key = k then some v else alookup rest key

/-- `aupdate m k v` is Python `m[k] = v`: replace the binding if the key is
present, otherwise append the new binding at the end (dict insertion order). -/
def aupdate {β : Type} : List (Nat × β) → Nat → β → List (Nat × β)
  | [], key, v => [(key, v)]
  | (k, w) :: rest, key, v =>
      if key = k then (k, v) :: rest else (k, w) :: aupdate rest key v

/-- The key list of an association list (Python `dict.keys()`). -/
def akeys {β : Type} (m : List (Nat × β)) : List Nat := m.map Prod.fst

/-- `adj.get(u, [])`: the outgoing edge list of `u`, empty when `u` is not a key. -/
def edgesOf (adj : Adj) (u : Nat) : List (Nat × ℤ) := (alookup adj u).getD []

/-- One step of a fuelled loop: continue, return a value, or raise. -/
inductive StepRes (σ ρ : Type) where
  | next : σ → StepRes σ ρ
  | done : ρ → StepRes σ ρ
  | fail : SErr → StepRes σ ρ

/-- Generic fuelled loop runner: the shape shared by every `while` loop of the
source. -/
def runLoop {σ ρ : Type} (step : σ → StepRes σ ρ) : Nat → σ → Except SErr ρ
  | 0, _ => .error .fuelOut
  | fuel + 1, st =>
    match step st with
    | .done r => .ok r
    | .fail e => .error e
    | .next st2 => runLoop step fuel st2

theorem runLoop_ok_of_measure {σ ρ : Type} (step : σ → StepRes σ ρ)
    (Inv : σ → Prop) (μ : σ → Nat) (P : ρ → Prop)
    (hstep : ∀ st, Inv st →
      (∃ r, step st = .done r ∧ P r) ∨
      (∃ st2, step st = .next st2 ∧ Inv st2 ∧ μ st2 < μ st)) :
    ∀ fuel st, Inv st → μ st < fuel → ∃ r, runLoop step fuel st = .ok r ∧ P r := by
  intro fuel
  induction fuel with
  | zero => intro st _ h; omega
  | succ n ih =>
    intro st hInv hμ
    rcases hstep st hInv with ⟨r, hr, hPr⟩ | ⟨st2, hst2, hInv2, hμ2⟩
    · exact ⟨r, by simp [runLoop, hr], hPr⟩
    · obtain ⟨r, hrun, hPr⟩ := ih st2 hInv2 (by omega)
      exact ⟨r, by simp [runLoop, hst2, hrun], hPr⟩

theorem runLoop_ok_done {σ ρ : Type} (step : σ → StepRes σ ρ) (P : ρ → Prop)
    (hdone : ∀ st r, step st = .done r → P r) :
    ∀ fuel st r, runLoop step fuel st = .ok r → P r := by
  intro fuel
  induction fuel with
  | zero => intro st r h; simp [runLoop] at h
  | succ n ih =>
    intro st r h
    unfold runLoop at h
    cases hst : step st with
    | next st2 =>
      rw [hst] at h
      exact ih st2 r h
    | done r2 =>
      rw [hst] at h
      have hr : r2 = r := Except.ok.inj h
      subst hr
      exact hdone st r2 hst
    | fail e =>
      rw [hst] at h
      exact Except.noConfusion h

theorem runLoop_no_fail {σ ρ : Type} (step : σ → StepRes σ ρ) (Inv : σ → Prop)
    (hstep : ∀ st, Inv st →
      (∀ e, step st ≠ .fail e) ∧ (∀ st2, step st = .next st2 → Inv st2)) :
    ∀ fuel st, Inv st → runLoop step fuel st ≠ .error .keyError := by
  intro fuel
  induction fuel with
  | zero => intro st _ h; simp [runLoop] at h
  | succ n ih =>
    intro st hInv h
    unfold runLoop at h
    cases hst : step st with
    | next st2 =>
      rw [hst] at h
      exact ih st2 ((hstep st hInv).2 st2 hst) h
    | done r2 =>
      rw [hst] at h
      exact Except.noConfusion h
    | fail e =>
      exact (hstep st hInv).1 e hst

/-! ### Strict total orders packaged with the facts the heap model needs

Python compares the heap entries (tuples) lexicographically; `SOrd` packages a
boolean strict total order together with asymmetry, transitivity and totality,
and `lexOrd` composes two of them the way Python compares pairs. -/

structure SOrd (α : Type) where
  lt : α → α → Bool
  asymm : ∀ x y, lt x y = true → lt y x = false
  trans : ∀ x y z, lt x y = true → lt y z = true → lt x z = true
  total : ∀ x y, lt x y = true ∨ lt y x = true ∨ x = y

theorem SOrd.irrefl {α : Type} (o : SOrd α) (x : α) : o.lt x x = false := by
  by_cases h : o.lt x x = true
  · have := o.asymm x x h; simp [h] at this
  · simpa using h

/-- `¬ x < y` and `¬ y < z` give `¬ x < z` (transitivity of `≥`). -/
theorem SOrd.negtrans {α : Type} (o : SOrd α) (x y z : α)
    (hxy : o.lt x y = false) (hyz : o.lt y z = false) : o.lt x z = false := by
  by_cases hxz : o.lt x z = true
  · rcases o.total x y with h | h | h
    · simp [h] at hxy
    · have := o.trans y x z h hxz
      simp [this] at hyz
    · subst h; simp [hxz] at hyz
  · simpa using hxz

def natOrd : SOrd Nat where
  lt a b := decide (a < b)
  asymm := by intro x y h; simp at h ⊢; omega
  trans := by intro x y z h1 h2; simp at h1 h2 ⊢; omega
  total := by intro x y; simp; omega

def intOrd : SOrd ℤ where
  lt a b := decide (a < b)
  asymm := by intro x y h; simp at h ⊢; linarith
  trans := by intro x y z h1 h2; simp at h1 h2 ⊢; linarith
  total := by
    intro x y
    rcases lt_trichotomy x y with h | h | h
    · left; simpa using h
    · right; right; exact h
    · right; left; simpa using h

/-- Lexicographic strict order on `List Nat`, as Python compares lists. -/
def listLtNat : List Nat → List Nat → Bool
  | [], [] => false
  | [], _ :: _ => true
  | _ :: _, [] => false
  | a :: as, b :: bs => if a < b then true else if b < a then false else listLtNat as bs

theorem listLtNat_cons_eq (a : Nat) (as bs : List Nat) :
    listLtNat (a :: as) (a :: bs) = listLtNat as bs := by
  simp [listLtNat]

theorem listLtNat_cons_lt {a b : Nat} (h : a < b) (as bs : List Nat) :
    listLtNat (a :: as) (b :: bs) = true := by
  simp [listLtNat, h]

theorem listLtNat_cons_gt {a b : Nat} (h : b < a) (as bs : List Nat) :
    listLtNat (a :: as) (b :: bs) = false := by
  have hab : ¬ a < b := by omega
  simp [listLtNat, hab, h]

def listNatOrd : SOrd (List Nat) where
  lt := listLtNat
  asymm := by
    intro x
    induction x with
    | nil => intro y h; cases y <;> simp_all [listLtNat]
    | cons a as ih =>
      intro y h
      cases y with
      | nil => simp [listLtNat] at h
      | cons b bs =>
        rcases Nat.lt_trichotomy a b with hab | hab | hab
        · exact listLtNat_cons_gt hab bs as
        · subst hab
          rw [listLtNat_cons_eq] at h ⊢
          exact ih bs h
        · rw [listLtNat_cons_gt hab as bs] at h
          exact absurd h (by simp)
  trans := by
    intro x
    induction x with
    | nil =>
      intro y z h1 h2
      cases y with
      | nil => simpa using h2
      | cons b bs => cases z with
        | nil => simp [listLtNat] at h2
        | cons c cs => simp [listLtNat]
    | cons a as ih =>
      intro y z h1 h2
      cases y with
      | nil => simp [listLtNat] at h1
      | cons b bs =>
        cases z with
        | nil => simp [listLtNat] at h2
        | cons c cs =>
          rcases Nat.lt_trichotomy a b with hab | hab | hab
          · rcases Nat.lt_trichotomy b c with hbc | hbc | hbc
            · exact listLtNat_cons_lt (by omega) as cs
            · subst hbc; exact listLtNat_cons_lt hab as cs
            · rw [listLtNat_cons_gt hbc bs cs] at h2
              exact absurd h2 (by simp)
          · subst hab
            rcases Nat.lt_trichotomy a c with hbc | hbc | hbc
            · exact listLtNat_cons_lt hbc as cs
            · subst hbc
              rw [listLtNat_cons_eq] at h1 h2 ⊢
              exact ih bs cs h1 h2
            · rw [listLtNat_cons_gt hbc bs cs] at h2
              exact absurd h2 (by simp)
          · rw [listLtNat_cons_gt hab as bs] at h1
            exact absurd h1 (by simp)
  total := by
    intro x
    induction x with
    | nil => intro y; cases y <;> simp [listLtNat]
    | cons a as ih =>
      intro y
      cases y with
      | nil => right; left; simp [listLtNat]
      | cons b bs =>
        rcases Nat.lt_trichotomy a b with hab | hab | hab
        · left; exact listLtNat_cons_lt hab as bs
        · subst hab
          rw [listLtNat_cons_eq, listLtNat_cons_eq]
          rcases ih bs with h | h | h
          · left; exact h
          · right; left; exact h
          · right; right; rw [h]
        · right; left; exact listLtNat_cons_lt hab bs as

/-- Python's lexicographic comparison of pairs: compare the first components,
fall through to the second on equality. -/
def lexOrd {α β : Type} [DecidableEq α] (oA : SOrd α) (oB : SOrd β) : SOrd (α × β) where
  lt x y := if x.1 = y.1 then oB.lt x.2 y.2 else oA.lt x.1 y.1
  asymm := by
    rintro ⟨x1, x2⟩ ⟨y1, y2⟩ h
    dsimp only at h ⊢
    by_cases he : x1 = y1
    · rw [if_pos he] at h
      rw [if_pos he.symm]
      exact oB.asymm _ _ h
    · rw [if_neg he] at h
      rw [if_neg (Ne.symm he)]
      exact oA.asymm _ _ h
  trans := by
    rintro ⟨x1, x2⟩ ⟨y1, y2⟩ ⟨z1, z2⟩ h1 h2
    dsimp only at h1 h2 ⊢
    by_cases hxy : x1 = y1 <;> by_cases hyz : y1 = z1
    · rw [if_pos hxy] at h1
      rw [if_pos hyz] at h2
      rw [if_pos (hxy.trans hyz)]
      exact oB.trans _ _ _ h1 h2
    · rw [if_pos hxy] at h1
      rw [if_neg hyz] at h2
      rw [if_neg (fun hc => hyz (hxy ▸ hc)), hxy]
      exact h2
    · rw [if_neg hxy] at h1
      rw [if_pos hyz] at h2
      rw [if_neg (fun hc => hxy (hyz ▸ hc)), ← hyz]
      exact h1
    · rw [if_neg hxy] at h1
      rw [if_neg hyz] at h2
      have hlt := oA.trans _ _ _ h1 h2
      have hne : x1 ≠ z1 := by
        intro he
        subst he
        have h3 := oA.trans _ _ _ h2 h1
        have h4 := oA.irrefl y1
        rw [h3] at h4
        exact Bool.noConfusion h4
      rw [if_neg hne]
      exact hlt
  total := by
    rintro ⟨x1, x2⟩ ⟨y1, y2⟩
    dsimp only
    by_cases he : x1 = y1
    · subst he
      rcases oB.total x2 y2 with h | h | h
      · left; rw [if_pos rfl]; exact h
      · right; left; rw [if_pos rfl]; exact h
      · right; right; rw [h]
    · rcases oA.total x1 y1 with h | h | h
      · left; rw [if_neg he]; exact h
      · right; left; rw [if_neg (Ne.symm he)]; exact h
      · exact absurd h he

/-- Combine the head of a list with the least element of its tail (if any):
helper for `selectMin`. -/
def selectMinAux {α : Type} (o : SOrd α) (x : α) (xs : List α) :
    Option (α × List α) → α × List α
  | none => (x, [])
  | some (m, rest) => if o.lt m x then (m, x :: rest) else (x, xs)

/-- Extract the leftmost least element (w.r.t. a strict order) together with
the rest of the list: the pop of the modelled binary heap. -/
def selectMin {α : Type} (o : SOrd α) : List α → Option (α × List α)
  | [] => none
  | x :: xs => some (selectMinAux o x xs (selectMin o xs))

theorem selectMin_mem {α : Type} (o : SOrd α) :
    ∀ (l : List α) e rest, selectMin o l = some (e, rest) →
      e ∈ l ∧ (∀ y ∈ rest, y ∈ l) ∧ l.length = rest.length + 1 := by
  intro l
  induction l with
  | nil => intro e rest h; simp [selectMin] at h
  | cons x xs ih =>
    intro e rest h
    simp only [selectMin] at h
    injection h with h
    rcases hxs : selectMin o xs with _ | ⟨m, mrest⟩
    · rw [hxs] at h
      simp only [selectMinAux] at h
      injection h with he hr
      subst he; subst hr
      cases xs with
      | nil => simp
      | cons a as => simp [selectMin] at hxs
    · rw [hxs] at h
      simp only [selectMinAux] at h
      obtain ⟨hm, hrest, hlen⟩ := ih m mrest hxs
      by_cases hlt : o.lt m x = true
      · rw [if_pos hlt] at h
        injection h with he hr
        subst he; subst hr
        refine ⟨by simp [hm], ?_, by simp [hlen]⟩
        intro y hy
        rcases List.mem_cons.mp hy with h | h
        · simp [h]
        · simp [hrest y h]
      · rw [if_neg hlt] at h
        injection h with he hr
        subst he; subst hr
        exact ⟨by simp, fun y hy => by simp [hy], by simp⟩

theorem selectMin_least {α : Type} (o : SOrd α) :
    ∀ (l : List α) e rest, selectMin o l = some (e, rest) →
      ∀ y ∈ l, o.lt y e = false := by
  intro l
  induction l with
  | nil => intro e rest h; simp [selectMin] at h
  | cons x xs ih =>
    intro e rest h y hy
    simp only [selectMin] at h
    injection h with h
    rcases hxs : selectMin o xs with _ | ⟨m, mrest⟩
    · rw [hxs] at h
      simp only [selectMinAux] at h
      injection h with he hr
      subst he
      cases xs with
      | nil =>
        have hyx := List.mem_singleton.mp hy
        subst hyx
        exact o.irrefl _
      | cons a as => simp [selectMin] at hxs
    · rw [hxs] at h
      simp only [selectMinAux] at h
      by_cases hlt : o.lt m x = true
      · rw [if_pos hlt] at h
        injection h with he hr
        subst he
        rcases List.mem_cons.mp hy with hyx | hmem
        · subst hyx
          exact o.asymm _ _ hlt
        · exact ih m mrest hxs y hmem
      · rw [if_neg hlt] at h
        injection h with he hr
        subst he
        rcases List.mem_cons.mp hy with hyx | hmem
        · subst hyx
          exact o.irrefl _
        · have hym := ih m mrest hxs y hmem
          have hmx : o.lt m x = false := by simpa using hlt
          exact o.negtrans y m x hym hmx

/-! ### `core/algorithms.py` -/

/-- Heap entries of `dijkstra`: `(cost, node, path)`. -/
abbrev DijEntry := ℤ × Nat × List Nat

/-- The order in which Python's `heapq` pops `dijkstra` entries. -/
def dijOrd : SOrd DijEntry := lexOrd intOrd (lexOrd natOrd listNatOrd)

/-- Heap entries of `a_star`: `(f, g, node, path)`. -/
abbrev AstarEntry := ℤ × ℤ × Nat × List Nat

def astarOrd : SOrd AstarEntry := lexOrd intOrd (lexOrd intOrd (lexOrd natOrd listNatOrd))

/-- Heap entries of `greedy_best`: `(h, node, path, cost)`. -/
abbrev GreedyEntry := ℤ × Nat × List Nat × ℤ

def greedyOrd : SOrd GreedyEntry := lexOrd intOrd (lexOrd natOrd (lexOrd listNatOrd intOrd))

/-- `node in visited and visited[node] <= cost` for a dict `visited`. -/
def visitedLE (visited : List (Nat × ℤ)) (node : Nat) (cost : ℤ) : Bool :=
  match alookup visited node with
  | some vc => decide (vc ≤ cost)
  | none => false

/-- Loop body of `bfs` (algorithms.py line 30): pop the queue head, return on
goal, skip visited nodes, else mark visited and enqueue unvisited neighbors. -/
def bfs_step (adj : Adj) (goal : Nat) :
    List (Nat × List Nat) × List Nat → StepRes (List (Nat × List Nat) × List Nat) SRes
  | ([], _) => .done (none, none)
  | ((node, path) :: rest, visited) =>
    if node = goal then .done (some path, some ((path.length - 1 : Nat) : ℤ))
    else if node ∈ visited then .next (rest, visited)
    else
      match alookup adj node with
      | none => .fail .keyError
      | some edges =>
        .next (rest ++ (edges.filter (fun e => decide (e.1 ∉ node :: visited))).map
          (fun e => (e.1, path ++ [e.1])), node :: visited)

def bfs (fuel : Nat) (adj : Adj) (start goal : Nat) : Except SErr SRes :=
  runLoop (bfs_step adj goal) fuel ([(start, [start])], [])

/-- Loop body of `dfs` (algorithms.py line 49): LIFO stack, push all neighbors
(Python appends in edge order, so the last edge is popped first). -/
def dfs_step (adj : Adj) (goal : Nat) :
    List (Nat × List Nat) × List Nat → StepRes (List (Nat × List Nat) × List Nat) SRes
  | ([], _) => .done (none, none)
  | ((node, path) :: rest, visited) =>
    if node = goal then .done (some path, some ((path.length - 1 : Nat) : ℤ))
    else if node ∈ visited then .next (rest, visited)
    else
      match alookup adj node with
      | none => .fail .keyError
      | some edges =>
        .next ((edges.map (fun e => (e.1, path ++ [e.1]))).reverse ++ rest, node :: visited)

def dfs (fuel : Nat) (adj : Adj) (start goal : Nat) : Except SErr SRes :=
  runLoop (dfs_step adj goal) fuel ([(start, [start])], [])

mutual
/-- `recurse` inside `depth_limited_dfs` (algorithms.py lines 66-75). -/
def dl_recurse (adj : Adj) (goal : Nat) (depth : Nat) (node : Nat) (path : List Nat) :
    Except SErr (Option (List Nat)) :=
  if node = goal then .ok (some path)
  else if depth = 0 then .ok none
  else
    match alookup adj node with
    | none => .error .keyError
    | some edges => dl_try adj goal (depth - 1) edges path
termination_by (depth, 0)
decreasing_by
  apply Prod.Lex.left
  omega

/-- The `for neighbor, _ in adj[node]` loop inside `recurse`: first successful
recursive call wins. -/
def dl_try (adj : Adj) (goal : Nat) (depth : Nat) (edges : List (Nat × ℤ))
    (path : List Nat) : Except SErr (Option (List Nat)) :=
  match edges with
  | [] => .ok none
  | (v, _) :: rest =>
    match dl_recurse adj goal depth v (path ++ [v]) with
    | .error e => .error e
    | .ok (some p) => .ok (some p)
    | .ok none => dl_try adj goal depth rest path
termination_by (depth, edges.length + 1)
decreasing_by
  · apply Prod.Lex.right
    simp only [List.length_cons]
    omega
  · apply Prod.Lex.right
    simp only [List.length_cons]
    omega
end

def depth_limited_dfs (adj : Adj) (start goal : Nat) (limit : Nat) : Except SErr SRes :=
  match dl_recurse adj goal limit start [start] with
  | .error e => .error e
  | .ok (some p) => .ok (some p, some ((p.length - 1 : Nat) : ℤ))
  | .ok none => .ok (none, none)

/-- Loop body of `dijkstra` (algorithms.py line 88): pop the least
`(cost, node, path)` entry, return on goal, lazily discard stale entries
(`node in visited and visited[node] <= cost`), else record the cost and push
all neighbors. -/
def dijkstra_step (adj : Adj) (goal : Nat)
    (st : List DijEntry × List (Nat × ℤ)) : StepRes (List DijEntry × List (Nat × ℤ)) SRes :=
  match selectMin dijOrd st.1 with
  | none => .done (none, none)
  | some ((cost, node, path), rest) =>
    if node = goal then .done (some path, some cost)
    else if visitedLE st.2 node cost then .next (rest, st.2)
    else
      match alookup adj node with
      | none => .fail .keyError
      | some edges =>
        .next (rest ++ edges.map (fun e => (cost + e.2, e.1, path ++ [e.1])),
          aupdate st.2 node cost)

def dijkstra (fuel : Nat) (adj : Adj) (start goal : Nat) : Except SErr SRes :=
  runLoop (dijkstra_step adj goal) fuel ([((0 : ℤ), start, [start])], [])

/-- Loop body of `greedy_best` (algorithms.py line 111). -/
def greedy_step (adj : Adj) (goal : Nat) (h : Nat → Nat → ℤ)
    (st : List GreedyEntry × List Nat) : StepRes (List GreedyEntry × List Nat) SRes :=
  match selectMin greedyOrd st.1 with
  | none => .done (none, none)
  | some ((_, node, path, cost), rest) =>
    if node = goal then .done (some path, some cost)
    else if node ∈ st.2 then .next (rest, st.2)
    else
      match alookup adj node with
      | none => .fail .keyError
      | some edges =>
        .next (rest ++ edges.map (fun e => (h e.1 goal, e.1, path ++ [e.1], cost + e.2)),
          node :: st.2)

def greedy_best (fuel : Nat) (adj : Adj) (start goal : Nat) (h : Nat → Nat → ℤ) :
    Except SErr SRes :=
  runLoop (greedy_step adj goal h) fuel ([(h start goal, start, [start], 0)], [])

/-- Loop body of `a_star` (algorithms.py line 129). -/
def a_star_step (adj : Adj) (goal : Nat) (h : Nat → Nat → ℤ)
    (st : List AstarEntry × List (Nat × ℤ)) : StepRes (List AstarEntry × List (Nat × ℤ)) SRes :=
  match selectMin astarOrd st.1 with
  | none => .done (none, none)
  | some ((_, g, node, path), rest) =>
    if node = goal then .done (some path, some g)
    else if visitedLE st.2 node g then .next (rest, st.2)
    else
      match alookup adj node with
      | none => .fail .keyError
      | some edges =>
        .next (rest ++ edges.map
            (fun e => (g + e.2 + h e.1 goal, g + e.2, e.1, path ++ [e.1])),
          aupdate st.2 node g)

def a_star (fuel : Nat) (adj : Adj) (start goal : Nat) (h : Nat → Nat → ℤ) :
    Except SErr SRes :=
  runLoop (a_star_step adj goal h) fuel ([(h start goal, 0, start, [start])], [])

/-- The `for neighbor, _ in adj[node]` scan of one side of
`bidirectional_bfs` (algorithms.py lines 158-164 and 167-173): extend the
`own` map and queue, and return the joined path as soon as a newly added node
is on the `other` side.  `isFront` says whether `own` is the start side. -/
def bb_scan (isFront : Bool) :
    List (Nat × ℤ) → List Nat → List (Nat × List Nat) → List (Nat × List Nat) → List Nat →
      Sum (List (Nat × List Nat) × List Nat) SRes
  | [], _, own, _, q => .inl (own, q)
  | (v, _) :: rest, basePath, own, other, q =>
    if v ∈ akeys own then bb_scan isFront rest basePath own other q
    else
      match alookup other v with
      | some opath =>
        let fpath := if isFront then basePath ++ [v] else opath
        let bpath := if isFront then opath else basePath ++ [v]
        let joined := fpath ++ bpath.dropLast.reverse
        .inr (some joined, some ((joined.length - 1 : Nat) : ℤ))
      | none => bb_scan isFront rest basePath (aupdate own v (basePath ++ [v])) other (q ++ [v])

/-- One iteration of the `while q_front and q_back` loop of
`bidirectional_bfs`: one step from the front side, then one from the back. -/
def bb_step (adj : Adj) :
    List (Nat × List Nat) × List (Nat × List Nat) × List Nat × List Nat →
      StepRes (List (Nat × List Nat) × List (Nat × List Nat) × List Nat × List Nat) SRes
  | (_, _, [], _) => .done (none, none)
  | (_, _, _ :: _, []) => .done (none, none)
  | (front, back, nf :: qf2, nb :: qb2) =>
    match alookup front nf with
    | none => .fail .keyError
    | some basePathF =>
      match alookup adj nf with
      | none => .fail .keyError
      | some edgesF =>
        match bb_scan true edgesF basePathF front back qf2 with
        | .inr res => .done res
        | .inl (front2, qf3) =>
          match alookup back nb with
          | none => .fail .keyError
          | some basePathB =>
            match alookup adj nb with
            | none => .fail .keyError
            | some edgesB =>
              match bb_scan false edgesB basePathB back front2 qb2 with
              | .inr res => .done res
              | .inl (back2, qb3) => .next (front2, back2, qf3, qb3)

def bidirectional_bfs (fuel : Nat) (adj : Adj) (start goal : Nat) : Except SErr SRes :=
  if start = goal then .ok (some [start], some 0)
  else runLoop (bb_step adj) fuel ([(start, [start])], [(goal, [goal])], [start], [goal])

/-- `bidirectional_dijkstra` delegates to `dijkstra` (algorithms.py line 181). -/
def bidirectional_dijkstra (fuel : Nat) (adj : Adj) (start goal : Nat) : Except SErr SRes :=
  dijkstra fuel adj start goal

/-- `float("inf")`-aware `dist[u] + w` of `bellman_ford`. -/
def optAdd (d : Option ℤ) (w : ℤ) : Option ℤ := d.map (· + w)

/-- `float("inf")`-aware `<` of `bellman_ford`. -/
def optLt : Option ℤ → Option ℤ → Bool
  | some a, some b => decide (a < b)
  | some _, none => true
  | none, _ => false

/-- The inner `for v, w in edges` loop of a `bellman_ford` pass. -/
def bf_inner (u : Nat) :
    List (Nat × ℤ) → List (Nat × Option ℤ) × List (Nat × Nat) × Bool →
      Except SErr (List (Nat × Option ℤ) × List (Nat × Nat) × Bool)
  | [], st => .ok st
  | (v, w) :: rest, (dist, prev, upd) =>
    match alookup dist u with
    | none => .error .keyError
    | some du =>
      match alookup dist v with
      | none => .error .keyError
      | some dv =>
        if optLt (optAdd du w) dv then
          bf_inner u rest (aupdate dist v (optAdd du w), aupdate prev v u, true)
        else bf_inner u rest (dist, prev, upd)

/-- The `for u, edges in adj.items()` loop of a `bellman_ford` pass. -/
def bf_items :
    Adj → List (Nat × Option ℤ) × List (Nat × Nat) × Bool →
      Except SErr (List (Nat × Option ℤ) × List (Nat × Nat) × Bool)
  | [], st => .ok st
  | (u, edges) :: rest, st =>
    match bf_inner u edges st with
    | .error e => .error e
    | .ok st2 => bf_items rest st2

/-- The `for _ in range(len(adj) - 1)` passes with early exit when no edge
relaxed. -/
def bf_passes (adj : Adj) :
    Nat → List (Nat × Option ℤ) × List (Nat × Nat) →
      Except SErr (List (Nat × Option ℤ) × List (Nat × Nat))
  | 0, st => .ok st
  | n + 1, (dist, prev) =>
    match bf_items adj (dist, prev, false) with
    | .error e => .error e
    | .ok (dist2, prev2, upd) =>
      if upd then bf_passes adj n (dist2, prev2) else .ok (dist2, prev2)

/-- The `while path[-1] in prev` reconstruction loop of `bellman_ford`,
accumulating the path in reversed form (so no final `reverse` is needed). -/
def bf_recon (prev : List (Nat × Nat)) : Nat → Nat → List Nat → Except SErr (List Nat)
  | 0, _, _ => .error .fuelOut
  | f + 1, cur, acc =>
    match alookup prev cur with
    | none => .ok (cur :: acc)
    | some p => bf_recon prev f p (cur :: acc)

def bellman_ford (fuel : Nat) (adj : Adj) (start goal : Nat) : Except SErr SRes :=
  let dist0 := aupdate ((akeys adj).map (fun u => (u, (none : Option ℤ)))) start (some 0)
  match bf_passes adj ((akeys adj).length - 1) (dist0, []) with
  | .error e => .error e
  | .ok (dist, prev) =>
    match alookup dist goal with
    | none => .error .keyError
    | some none => .ok (none, none)
    | some (some c) =>
      match bf_recon prev fuel goal [] with
      | .error e => .error e
      | .ok path => .ok (some path, some c)

/-! ### `core/landmarks.py` -/

/-- `rev[v].append((u, w))` on a `defaultdict(list)`: append to the existing
list, or create the key at the end (dict insertion order). -/
def rev_add (rev : Adj) (v : Nat) (p : Nat × ℤ) : Adj :=
  match alookup rev v with
  | some l => aupdate rev v (l ++ [p])
  | none => rev ++ [(v, [p])]

def reverse_graph (adj : Adj) : Adj :=
  adj.foldl (fun rev ue => ue.2.foldl (fun rev e => rev_add rev e.1 (ue.1, e.2)) rev) []

/-- Heap entries of `dijkstra_from_source`: `(distance, node)`. -/
abbrev SSEntry := ℤ × Nat

def sssOrd : SOrd SSEntry := lexOrd intOrd natOrd

/-- `v not in dist or nd < dist[v]`. -/
def sss_better (dist : List (Nat × ℤ)) (v : Nat) (nd : ℤ) : Bool :=
  match alookup dist v with
  | none => true
  | some dv => decide (nd < dv)

/-- The `for v, w in adj.get(u, [])` expansion of `dijkstra_from_source`:
later edges of the same scan see the distance updates of earlier ones. -/
def sss_expand (d : ℤ) :
    List (Nat × ℤ) → List SSEntry × List (Nat × ℤ) → List SSEntry × List (Nat × ℤ)
  | [], st => st
  | (v, w) :: rest, (pq, dist) =>
    if sss_better dist v (d + w) then
      sss_expand d rest (pq ++ [(d + w, v)], aupdate dist v (d + w))
    else sss_expand d rest (pq, dist)

/-- Loop body of `dijkstra_from_source` (landmarks.py line 28).  A node absent
from the adjacency keys contributes no outgoing edges (`adj.get(u, [])`). -/
def sss_step (adj : Adj) (st : List SSEntry × List (Nat × ℤ)) :
    StepRes (List SSEntry × List (Nat × ℤ)) (List (Nat × ℤ)) :=
  match selectMin sssOrd st.1 with
  | none => .done st.2
  | some ((d, u), rest) =>
    match alookup st.2 u with
    | none => .fail .keyError
    | some du =>
      if du < d then .next (rest, st.2)
      else .next (sss_expand d (edgesOf adj u) (rest, st.2))

def dijkstra_from_source (fuel : Nat) (adj : Adj) (src : Nat) :
    Except SErr (List (Nat × ℤ)) :=
  runLoop (sss_step adj) fuel ([((0 : ℤ), src)], [(src, (0 : ℤ))])

/-- One step of Python's `max(iterable, key=...)`: keep the current best
unless the new element's key is strictly greater. -/
def pyMaxStep {α β : Type} (gt : β → β → Bool) (key : α → β) (acc : Option α) (x : α) :
    Option α :=
  match acc with
  | none => some x
  | some m => if gt (key x) (key m) then some x else some m

/-- Python's `max(iterable, key=...)`: the first element whose key no later
element strictly exceeds.  `none` on an empty iterable (where Python raises). -/
def pyMaxKey {α β : Type} (gt : β → β → Bool) (key : α → β) (l : List α) : Option α :=
  l.foldl (pyMaxStep gt key) none

/-- `>` on `dist.get(u, float("inf"))` values. -/
def optGt : Option ℤ → Option ℤ → Bool
  | none, none => false
  | none, some _ => true
  | some _, none => false
  | some x, some y => decide (y < x)

/-- Insert into a list sorted descending by `keyOf`, after all elements with an
equal or larger key: one step of Python's stable `sorted(..., reverse=True)`. -/
def insertByDesc {α : Type} (keyOf : α → Nat) : List α → α → List α
  | [], x => [x]
  | y :: ys, x => if keyOf y < keyOf x then x :: y :: ys else y :: insertByDesc keyOf ys x

/-- Python's stable `sorted(l, key=keyOf, reverse=True)`. -/
def sortDescBy {α : Type} (keyOf : α → Nat) (l : List α) : List α :=
  l.foldl (insertByDesc keyOf) []

/-- The `for _ in range(1, max(1, k))` loop of `select_landmarks`: repeatedly
add the candidate farthest from the last landmark, skipping repeats. -/
def sl_loop (fuel : Nat) (adj : Adj) (candidates : List Nat) :
    Nat → List Nat → Except SErr (List Nat)
  | 0, L => .ok L
  | n + 1, L =>
    match L.getLast? with
    | none => .error .keyError
    | some last =>
      match dijkstra_from_source fuel adj last with
      | .error e => .error e
      | .ok dist =>
        match pyMaxKey optGt (fun u => alookup dist u) candidates with
        | none => .error .keyError
        | some far => sl_loop fuel adj candidates n (if far ∈ L then L else L ++ [far])

def select_landmarks (fuel : Nat) (adj : Adj) (k : Int) : Except SErr (List Nat) :=
  if adj.isEmpty then .ok []
  else
    match pyMaxKey (fun a b : Nat => decide (b < a)) (fun u => (edgesOf adj u).length)
        (akeys adj) with
    | none => .ok []
    | some seed =>
      let candidates :=
        (sortDescBy (fun u => (edgesOf adj u).length) (akeys adj)).take
          (min 5000 (akeys adj).length)
      sl_loop fuel adj candidates (max 1 k - 1).toNat [seed]

/-- The `for L in landmarks` loop of `build_tables`. -/
def bt_loop (fuel : Nat) (adj rev : Adj) :
    List Nat → List (Nat × List (Nat × ℤ)) × List (Nat × List (Nat × ℤ)) →
      Except SErr (List (Nat × List (Nat × ℤ)) × List (Nat × List (Nat × ℤ)))
  | [], st => .ok st
  | L :: rest, (tf, tr) =>
    match dijkstra_from_source fuel adj L with
    | .error e => .error e
    | .ok dF =>
      match dijkstra_from_source fuel rev L with
      | .error e => .error e
      | .ok dR => bt_loop fuel adj rev rest (aupdate tf L dF, aupdate tr L dR)

def build_tables (fuel : Nat) (adj : Adj) (landmarks : List Nat) :
    Except SErr (List (Nat × List (Nat × ℤ)) × List (Nat × List (Nat × ℤ))) :=
  bt_loop fuel adj (reverse_graph adj) landmarks ([], [])

/-- `alt_heuristic_factory` (landmarks.py lines 92-124).  The tables produced
by `build_tables` bind every landmark in both tables, so the Python access
`dist_v_to_L[L]` is modelled by a lookup defaulting to the empty table. -/
def alt_heuristic_factory (goal : Nat)
    (dist_L_to_v dist_v_to_L : List (Nat × List (Nat × ℤ))) : Nat → Nat → ℤ :=
  let dLt : List (Nat × Option ℤ) := dist_L_to_v.map (fun p => (p.1, alookup p.2 goal))
  let dtL : List (Nat × Option ℤ) := dist_v_to_L.map (fun p => (p.1, alookup p.2 goal))
  fun u _ =>
    dist_L_to_v.foldl (fun best p =>
      let dLs := alookup p.2 u
      let dsL := alookup ((alookup dist_v_to_L p.1).getD []) u
      let best2 :=
        match alookup dLt p.1, dLs with
        | some (some a), some b => if best < |a - b| then |a - b| else best
        | _, _ => best
      match alookup dtL p.1, dsL with
      | some (some a), some b => if best2 < |b - a| then |b - a| else best2
      | _, _ => best2) 0

/-! ### `core/pathfinder.py` -/

/-- The `Index` TypedDict (`total=False`: every key optional). -/
structure Index where
  weight_map : Option (List (Nat × List (Nat × ℤ))) := none
  weak_components : Option (List (Nat × Nat)) := none
  uniform_weights : Option Bool := none
  node_count : Option Nat := none
  edge_count : Option Nat := none
  landmarks : Option (List Nat) := none
  dist_L_to_v : Option (List (Nat × List (Nat × ℤ))) := none
  dist_v_to_L : Option (List (Nat × List (Nat × ℤ))) := none
deriving DecidableEq, Repr

/-- A dict with no keys is falsy in Python (`not index`, `index or {}`). -/
def Index.isEmpty (i : Index) : Bool :=
  i.weight_map.isNone && i.weak_components.isNone && i.uniform_weights.isNone &&
    i.node_count.isNone && i.edge_count.isNone && i.landmarks.isNone &&
    i.dist_L_to_v.isNone && i.dist_v_to_L.isNone

/-- `idx = index or {}`. -/
def orEmpty (index : Option Index) : Index :=
  match index with
  | none => {}
  | some i => if i.isEmpty then {} else i

def _build_weight_map (adj : Adj) : List (Nat × List (Nat × ℤ)) :=
  adj.foldl (fun wm ue =>
    let m := ue.2.foldl (fun m e => aupdate m e.1 e.2) ((alookup wm ue.1).getD [])
    aupdate wm ue.1 m) []

/-- `und[u].append(v); und[v].append(u)` on a `defaultdict(list)`. -/
def und_add (und : List (Nat × List Nat)) (a b : Nat) : List (Nat × List Nat) :=
  match alookup und a with
  | some l => aupdate und a (l ++ [b])
  | none => und ++ [(a, [b])]

def build_und (adj : Adj) : List (Nat × List Nat) :=
  adj.foldl (fun und ue =>
    ue.2.foldl (fun und e => und_add (und_add und ue.1 e.1) e.1 ue.1) und) []

/-- Body of the flood-fill `while q` loop of `_build_weak_components`: label
every unlabelled undirected neighbor of the popped node with `cid`. -/
def wc_step (und : List (Nat × List Nat)) (cid : Nat) :
    List (Nat × Nat) × List Nat → StepRes (List (Nat × Nat) × List Nat) (List (Nat × Nat))
  | (comp, []) => .done comp
  | (comp, x :: q2) =>
    .next (((alookup und x).getD []).foldl (fun (st : List (Nat × Nat) × List Nat) y =>
      match alookup st.1 y with
      | some _ => st
      | none => (aupdate st.1 y cid, st.2 ++ [y])) (comp, q2))

/-- The `for start in adj.keys()` seed loop of `_build_weak_components`. -/
def wc_seed_loop (und : List (Nat × List Nat)) (fuel : Nat) :
    List Nat → List (Nat × Nat) × Nat → Except SErr (List (Nat × Nat))
  | [], (comp, _) => .ok comp
  | s :: rest, (comp, cid) =>
    match alookup comp s with
    | some _ => wc_seed_loop und fuel rest (comp, cid)
    | none =>
      match runLoop (wc_step und (cid + 1)) fuel (aupdate comp s (cid + 1), [s]) with
      | .error e => .error e
      | .ok comp2 => wc_seed_loop und fuel rest (comp2, cid + 1)

def _build_weak_components (fuel : Nat) (adj : Adj) : Except SErr (List (Nat × Nat)) :=
  wc_seed_loop (build_und adj) fuel (akeys adj) ([], 0)

/-- `_reachable` (pathfinder.py lines 80-86). -/
def _reachable (index : Option Index) (s g : Nat) : Bool :=
  match index with
  | none => true
  | some idx =>
    if idx.isEmpty then true
    else
      let comp := idx.weak_components.getD []
      if comp.isEmpty then true
      else decide (alookup comp s = alookup comp g)

/-- `preprocess_index` (pathfinder.py lines 90-134).  The cooperative abort
flag is a constant of the run here: when set it is observed at the first
per-item check of the weight-map loop and before the weak-component build,
exactly as a flag that was already set when the build started. -/
def preprocess_index (fuel : Nat) (adj : Adj) (stop_flag : Bool) : Except SErr Index :=
  let weight_map := if stop_flag then [] else _build_weight_map adj
  match (if stop_flag then Except.ok [] else _build_weak_components fuel adj) with
  | .error e => .error e
  | .ok weak_components =>
    let weights := adj.foldl (fun acc ue => acc ++ ue.2.map Prod.snd) []
    let uniform := weights.all (fun w => decide (w = 1))
    let base : Index :=
      { weight_map := some weight_map, weak_components := some weak_components,
        uniform_weights := some uniform, node_count := some adj.length,
        edge_count := some weights.length }
    if ¬ stop_flag ∧ 10000 ≤ adj.length then
      match select_landmarks fuel adj 12 with
      | .error e => .error e
      | .ok L =>
        match build_tables fuel adj L with
        | .error e => .error e
        | .ok tbls =>
          .ok { base with
                landmarks := some L
                dist_L_to_v := some tbls.1
                dist_v_to_L := some tbls.2 }
    else .ok base

/-- The strategies `choose_algorithm` can return. -/
inductive Strategy where
  | astar_alt : Strategy
  | bellmanford : Strategy
  | astar_zero : Strategy
  | breadth_first : Strategy
  | dijkstra_plain : Strategy
deriving DecidableEq, Repr

/-- `choose_algorithm` (pathfinder.py lines 138-185), with the returned
closure named by a `Strategy` tag; `run_strategy` gives each tag its meaning. -/
def choose_algorithm (adj : Adj) (index : Option Index) : Strategy :=
  let idx := orEmpty index
  if idx.landmarks.isSome then .astar_alt
  else if adj.any (fun ue => ue.2.any (fun e => decide (e.2 < 0))) then .bellmanford
  else if 10000 < idx.node_count.getD adj.length then .astar_zero
  else if idx.uniform_weights.getD true then .breadth_first
  else .dijkstra_plain

/-- Execute the strategy returned by `choose_algorithm`: the `AStar_ALT`
closure rebuilds the ALT heuristic from the index tables for the query goal. -/
def run_strategy (fuel : Nat) (strat : Strategy) (adj : Adj) (idx : Index)
    (s g : Nat) : Except SErr SRes :=
  match strat with
  | .astar_alt =>
    a_star fuel adj s g
      (alt_heuristic_factory g (idx.dist_L_to_v.getD []) (idx.dist_v_to_L.getD []))
  | .bellmanford => bellman_ford fuel adj s g
  | .astar_zero => a_star fuel adj s g (fun _ _ => 0)
  | .breadth_first => bfs fuel adj s g
  | .dijkstra_plain => dijkstra fuel adj s g

/-- `find_path` (pathfinder.py lines 189-200). -/
def find_path (fuel : Nat) (adj : Adj) (start goal : Nat) (index : Option Index) :
    Except SErr SRes :=
  if start = goal then .ok (some [start], some 0)
  else if ¬ _reachable index start goal then .ok (none, none)
  else run_strategy fuel (choose_algorithm adj index) adj (orEmpty index) start goal

/-! ### `core/heuristics.py`

Node identifiers given to a heuristic are either Python ints or 2-tuples of
floats; floats are modelled by `ℝ` (their arithmetic is irrelevant to the
shape-checking behaviour under test).  A raised `TypeError` is `.error ()`. -/

/-- A value passed to a heuristic: `isinstance(u, int)` or a tuple. -/
inductive HNode where
  | int : Int → HNode
  | tup : List ℝ → HNode

def bothInt : HNode → HNode → Bool
  | .int _, .int _ => true
  | _, _ => false

/-- `isinstance(u, tuple) and isinstance(v, tuple) and len(u) == 2 and len(v) == 2`. -/
def bothPair : HNode → HNode → Bool
  | .tup u, .tup v => decide (u.length = 2) && decide (v.length = 2)
  | _, _ => false

noncomputable def zero (u v : HNode) : Except Unit ℝ := .ok 0

noncomputable def manhattan : HNode → HNode → Except Unit ℝ
  | .int u, .int v => .ok |(u : ℝ) - (v : ℝ)|
  | .tup [x1, y1], .tup [x2, y2] => .ok (|x1 - x2| + |y1 - y2|)
  | _, _ => .error ()

noncomputable def euclidean : HNode → HNode → Except Unit ℝ
  | .int u, .int v => .ok |(u : ℝ) - (v : ℝ)|
  | .tup [x1, y1], .tup [x2, y2] => .ok (Real.sqrt ((x1 - x2) ^ 2 + (y1 - y2) ^ 2))
  | _, _ => .error ()

noncomputable def chebyshev : HNode → HNode → Except Unit ℝ
  | .int u, .int v => .ok |(u : ℝ) - (v : ℝ)|
  | .tup [x1, y1], .tup [x2, y2] => .ok (max |x1 - x2| |y1 - y2|)
  | _, _ => .error ()

noncomputable def octile : HNode → HNode → Except Unit ℝ
  | .int u, .int v => .ok |(u : ℝ) - (v : ℝ)|
  | .tup [x1, y1], .tup [x2, y2] =>
    .ok (max |x1 - x2| |y1 - y2| + (Real.sqrt 2 - 1) * min |x1 - x2| |y1 - y2|)
  | _, _ => .error ()

/-- `math.radians`. -/
noncomputable def radiansH (x : ℝ) : ℝ := x * (Real.pi / 180)

noncomputable def haversine : HNode → HNode → Except Unit ℝ
  | .tup [lat1d, lon1d], .tup [lat2d, lon2d] =>
    let lat1 := radiansH lat1d
    let lon1 := radiansH lon1d
    let lat2 := radiansH lat2d
    let lon2 := radiansH lon2d
    let dlat := lat2 - lat1
    let dlon := lon2 - lon1
    let a := Real.sin (dlat / 2) ^ 2 +
      Real.cos lat1 * Real.cos lat2 * Real.sin (dlon / 2) ^ 2
    .ok (2 * 6371 * Real.arcsin (Real.sqrt a))
  | _, _ => .error ()

/-! ### Association-list facts -/

theorem alookup_aupdate_self {β : Type} (m : List (Nat × β)) (k : Nat) (v : β) :
    alookup (aupdate m k v) k = some v := by
  induction m with
  | nil => simp [aupdate, alookup]
  | cons p rest ih =>
    by_cases h : k = p.1
    · simp [aupdate, alookup, h]
    · simp only [aupdate]
      rw [if_neg h]
      simp only [alookup]
      rw [if_neg h]
      exact ih

theorem alookup_aupdate_ne {β : Type} (m : List (Nat × β)) (k k' : Nat) (v : β)
    (h : k' ≠ k) : alookup (aupdate m k v) k' = alookup m k' := by
  induction m with
  | nil => simp [aupdate, alookup, h]
  | cons p rest ih =>
    by_cases hk : k = p.1
    · subst hk
      simp only [aupdate, if_pos rfl]
      simp only [alookup]
      rw [if_neg h, if_neg h]
    · simp only [aupdate]
      rw [if_neg hk]
      by_cases hk' : k' = p.1
      · simp [alookup, hk']
      · simp only [alookup]
        rw [if_neg hk', if_neg hk']
        exact ih

theorem alookup_isSome_of_aupdate {β : Type} (m : List (Nat × β)) (k k' : Nat) (v : β)
    (h : (alookup m k').isSome) : (alookup (aupdate m k v) k').isSome := by
  by_cases he : k' = k
  · subst he
    rw [alookup_aupdate_self]
    rfl
  · rw [alookup_aupdate_ne m k k' v he]
    exact h

theorem alookup_mem {β : Type} (m : List (Nat × β)) (k : Nat) (v : β)
    (h : alookup m k = some v) : (k, v) ∈ m := by
  induction m with
  | nil => simp [alookup] at h
  | cons p rest ih =>
    rcases p with ⟨p1, p2⟩
    simp only [alookup] at h
    by_cases hk : k = p1
    · rw [if_pos hk] at h
      injection h with h
      subst hk; subst h
      exact List.mem_cons_self _ _
    · rw [if_neg hk] at h
      exact List.mem_cons_of_mem _ (ih h)

theorem alookup_isSome_iff_mem_akeys {β : Type} (m : List (Nat × β)) (k : Nat) :
    (alookup m k).isSome = true ↔ k ∈ akeys m := by
  induction m with
  | nil => simp [alookup, akeys]
  | cons p rest ih =>
    simp only [alookup, akeys, List.map_cons, List.mem_cons]
    by_cases hk : k = p.1
    · rw [if_pos hk]
      simp [hk]
    · rw [if_neg hk]
      simp only [akeys] at ih
      simp [ih, hk]

/-! ### Paths and their costs (for stating optimality facts) -/

/-- Adjacent pairs of the list are all edges of the graph. -/
def chainOk (adj : Adj) : List Nat → Bool
  | [] => true
  | [_] => true
  | a :: b :: rest => (edgesOf adj a).any (fun e => e.1 == b) && chainOk adj (b :: rest)

/-- `p` is a path of the graph from `s` to `g`. -/
def validPath (adj : Adj) (s g : Nat) (p : List Nat) : Bool :=
  p.head? == some s && p.getLast? == some g && chainOk adj p

/-- The sum of the (first-listed) edge weights along the list, `none` when an
adjacent pair is not an edge. -/
def pathCost (adj : Adj) : List Nat → Option ℤ
  | [] => some 0
  | [_] => some 0
  | a :: b :: rest =>
    match alookup (edgesOf adj a) b with
    | none => none
    | some w => (pathCost adj (b :: rest)).map (w + ·)

/-! ### Concrete instances used by the claims -/

/-- Directed graph on which the ALT heuristic overestimates: landmark 3
reaches the goal 2 cheaply but node 1 expensively, so `|d(L,t) - d(L,s)|`
is 19 while the true distance from 1 to 2 is 1. -/
def adjB : Adj := [(0, [(1, 1), (2, 10)]), (1, [(2, 1)]), (2, []), (3, [(2, 1), (1, 20)])]

/-- A malformed graph: node 1 appears as an edge target but not as a key. -/
def adjM : Adj := [(0, [(1, 1)])]

/-- Two mutually reachable nodes: every landmark pick after the first repeats. -/
def adjC8 : Adj := [(0, [(1, 1)]), (1, [(0, 1)])]

/-- An index whose component map binds node 0 only. -/
def idx3 : Index := { weak_components := some [(0, 1)] }

/-! ### C6 -/

/-- C6: for every graph, node `s`, index (or none) and fuel,
`find_path(graph, s, s, index)` returns the single-node path `[s]` with cost
`0` — the `start == goal` short-circuit runs before the reachability check and
the selector, so no algorithm can fail even if `s` has no outgoing edges. -/
theorem C6_find_path_self (fuel : Nat) (adj : Adj) (s : Nat) (index : Option Index) :
    find_path fuel adj s s index = .ok (some [s], some 0) := by
  simp [find_path]

/-! ### C10 -/

/-- C10: whenever `dfs` or `depth_limited_dfs` returns a path, the reported
cost is the number of edges of that path (`len(path) - 1`), regardless of the
edge weights. -/
theorem C10_dfs_cost_is_hops :
    (∀ fuel adj s g p c, dfs fuel adj s g = .ok (some p, c) →
      c = some ((p.length - 1 : Nat) : ℤ)) ∧
    (∀ adj s g limit p c, depth_limited_dfs adj s g limit = .ok (some p, c) →
      c = some ((p.length - 1 : Nat) : ℤ)) := by
  constructor
  · intro fuel adj s g p c h
    have hP := runLoop_ok_done (dfs_step adj g)
      (fun r => ∀ q, r.1 = some q → r.2 = some ((q.length - 1 : Nat) : ℤ))
      (by
        intro st r hst
        rcases st with ⟨q, vis⟩
        cases q with
        | nil =>
          simp only [dfs_step] at hst
          injection hst with hst
          subst hst
          intro q hq
          exact absurd hq (by simp)
        | cons top rest =>
          rcases top with ⟨node, path⟩
          simp only [dfs_step] at hst
          by_cases hgoal : node = g
          · rw [if_pos hgoal] at hst
            injection hst with hst
            subst hst
            intro q hq
            injection hq with hq
            subst hq
            rfl
          · rw [if_neg hgoal] at hst
            by_cases hvis : node ∈ vis
            · rw [if_pos hvis] at hst
              exact StepRes.noConfusion hst
            · rw [if_neg hvis] at hst
              rcases halo : alookup adj node with _ | edges <;> rw [halo] at hst <;>
                exact StepRes.noConfusion hst)
      fuel _ _ h
    exact hP p rfl
  · intro adj s g limit p c h
    unfold depth_limited_dfs at h
    rcases hrec : dl_recurse adj g limit s [s] with e | p2 <;> rw [hrec] at h
    · exact Except.noConfusion h
    · cases p2 with
      | none =>
        simp only [] at h
        injection h with h
        injection h with h1 h2
        exact absurd h1 (by simp)
      | some q =>
        simp only [] at h
        injection h with h
        injection h with h1 h2
        injection h1 with h1
        subst h1
        exact h2.symm

/-- Witness for C10 on a weighted chain: the edge has weight 5 but the
reported dfs cost is the hop count 1. -/
theorem C10_witness :
    dfs 10 [(0, [(1, 5)]), (1, [])] 0 1 = .ok (some [0, 1], some 1) ∧
    (some (1 : ℤ) = some ((([0, 1] : List Nat).length - 1 : Nat) : ℤ)) ∧
    depth_limited_dfs [(0, [(1, 5)]), (1, [])] 0 1 5 = .ok (some [0, 1], some 1) ∧
    (some (1 : ℤ) = some ((([0, 1] : List Nat).length - 1 : Nat) : ℤ)) := by
  have h1 : dfs 10 [(0, [(1, 5)]), (1, [])] 0 1 = .ok (some [0, 1], some 1) := rfl
  have h2 : depth_limited_dfs [(0, [(1, 5)]), (1, [])] 0 1 5 = .ok (some [0, 1], some 1) := by
    simp [depth_limited_dfs, dl_recurse, dl_try, alookup]
  exact ⟨h1, C10_dfs_cost_is_hops.1 _ _ _ _ _ _ h1, h2, C10_dfs_cost_is_hops.2 _ _ _ _ _ _ h2⟩

/-! ### C3 -/

/-- C3 counterexample: node 5 is absent from the component map, so the claim
("true unless both are present with different ids") predicts `true`, but
`_reachable` compares `comp.get(0) == comp.get(5)`, i.e. `some 1 == none`,
and returns `false`. -/
theorem C3_counterexample :
    _reachable (some idx3) 0 5 = false ∧
    alookup (idx3.weak_components.getD []) 5 = none ∧
    alookup (idx3.weak_components.getD []) 0 = some 1 := ⟨rfl, rfl, rfl⟩

/-- C3 amended: `_reachable` returns `false` iff the index is present and
non-empty, its component map is non-empty, and the map lookups of `s` and `g`
differ — so both present with different ids, or exactly one present.  (It
returns `true` when the index is absent/empty, the map is empty, both nodes
are absent, or both are present with equal ids.) -/
theorem C3_reachable_amended (index : Option Index) (s g : Nat) :
    _reachable index s g = false ↔
      ∃ idx, index = some idx ∧ idx.isEmpty = false ∧
        (idx.weak_components.getD []).isEmpty = false ∧
        alookup (idx.weak_components.getD []) s ≠ alookup (idx.weak_components.getD []) g := by
  cases index with
  | none => simp [_reachable]
  | some idx =>
    simp only [_reachable]
    by_cases hemp : idx.isEmpty = true
    · rw [if_pos hemp]
      constructor
      · intro h
        exact absurd h (by simp)
      · rintro ⟨idx2, heq, hemp2, _, _⟩
        injection heq with heq
        subst heq
        rw [hemp] at hemp2
        exact absurd hemp2 (by simp)
    · rw [if_neg hemp]
      by_cases hcomp : (idx.weak_components.getD []).isEmpty = true
      · rw [if_pos hcomp]
        constructor
        · intro h
          exact absurd h (by simp)
        · rintro ⟨idx2, heq, _, hcomp2, _⟩
          injection heq with heq
          subst heq
          rw [hcomp] at hcomp2
          exact absurd hcomp2 (by simp)
      · rw [if_neg hcomp]
        constructor
        · intro h
          refine ⟨idx, rfl, by simpa using hemp, by simpa using hcomp, ?_⟩
          simpa using h
        · rintro ⟨idx2, heq, _, _, hne⟩
          injection heq with heq
          subst heq
          simpa using hne

/-! ### C5 -/

/-- An index whose Python dict is empty has every optional key missing. -/
theorem isEmpty_eq_default (i : Index) (h : i.isEmpty = true) : i = {} := by
  rcases i with ⟨f1, f2, f3, f4, f5, f6, f7, f8⟩
  simp only [Index.isEmpty, Bool.and_eq_true, Option.isNone_iff_eq_none] at h
  obtain ⟨⟨⟨⟨⟨⟨⟨h1, h2⟩, h3⟩, h4⟩, h5⟩, h6⟩, h7⟩, h8⟩ := h
  subst h1; subst h2; subst h3; subst h4; subst h5; subst h6; subst h7; subst h8
  rfl

/-- The selection policy exactly as the spec's §4.5 states it: five rules,
first match wins, on the index as given (an absent index contributes no
fields). -/
def spec_choose (adj : Adj) (index : Option Index) : Strategy :=
  let idx := index.getD {}
  if idx.landmarks.isSome then .astar_alt
  else if adj.any (fun ue => ue.2.any (fun e => decide (e.2 < 0))) then .bellmanford
  else if 10000 < idx.node_count.getD adj.length then .astar_zero
  else if idx.uniform_weights.getD true then .breadth_first
  else .dijkstra_plain

/-- C5: `choose_algorithm` is the deterministic first-match policy of the
spec: landmark data → A*+ALT; else a negative edge weight → Bellman–Ford;
else `node_count > 10000` → A* with the zero heuristic; else the
uniform-weight flag (default true) → breadth-first search; else Dijkstra.
The only wrinkle, Python's `index or {}` collapsing an empty index to `{}`,
is invisible because an empty index has no fields. -/
theorem C5_choose_algorithm_policy (adj : Adj) (index : Option Index) :
    choose_algorithm adj index = spec_choose adj index := by
  cases index with
  | none => rfl
  | some i =>
    by_cases hemp : i.isEmpty = true
    · rw [isEmpty_eq_default i hemp]
      simp [choose_algorithm, spec_choose, orEmpty, Index.isEmpty]
    · simp only [choose_algorithm, spec_choose, orEmpty, if_neg hemp, Option.getD_some]

/-! ### C8 -/

theorem pyMax_fold_mem {α β : Type} (gt : β → β → Bool) (key : α → β) :
    ∀ (l : List α) (acc : Option α) m,
      l.foldl (pyMaxStep gt key) acc = some m → acc = some m ∨ m ∈ l := by
  intro l
  induction l with
  | nil => intro acc m h; exact .inl h
  | cons x xs ih =>
    intro acc m h
    simp only [List.foldl_cons] at h
    rcases ih _ m h with hacc | hmem
    · cases acc with
      | none =>
        simp only [pyMaxStep] at hacc
        injection hacc with hacc
        subst hacc
        exact .inr (List.mem_cons_self _ _)
      | some m0 =>
        simp only [pyMaxStep] at hacc
        by_cases hgt : gt (key x) (key m0) = true
        · rw [if_pos hgt] at hacc
          injection hacc with hacc
          subst hacc
          exact .inr (List.mem_cons_self _ _)
        · rw [if_neg hgt] at hacc
          exact .inl hacc
    · exact .inr (List.mem_cons_of_mem _ hmem)

theorem pyMax_fold_isSome {α β : Type} (gt : β → β → Bool) (key : α → β) :
    ∀ (l : List α) (a : α), (l.foldl (pyMaxStep gt key) (some a)).isSome = true := by
  intro l
  induction l with
  | nil => intro a; rfl
  | cons x xs ih =>
    intro a
    simp only [List.foldl_cons, pyMaxStep]
    by_cases hgt : gt (key x) (key a) = true
    · rw [if_pos hgt]; exact ih x
    · rw [if_neg hgt]; exact ih a

/-- For the out-degree order `gt a b = decide (b < a)` the fold's result key
dominates the accumulator and every scanned element. -/
theorem pyMax_fold_nat_max {α : Type} (key : α → Nat) :
    ∀ (l : List α) (acc : Option α) m,
      l.foldl (pyMaxStep (fun a b => decide (b < a)) key) acc = some m →
      (∀ a0, acc = some a0 → key a0 ≤ key m) ∧ ∀ x ∈ l, key x ≤ key m := by
  intro l
  induction l with
  | nil =>
    intro acc m h
    refine ⟨fun a0 ha => ?_, by simp⟩
    rw [ha] at h
    injection h with h
    rw [h]
  | cons x xs ih =>
    intro acc m h
    simp only [List.foldl_cons] at h
    obtain ⟨hacc2, hxs⟩ := ih _ m h
    constructor
    · intro a0 ha
      subst ha
      by_cases hgt : key a0 < key x
      · have hx := hacc2 x (by simp [pyMaxStep, hgt])
        omega
      · exact hacc2 a0 (by simp [pyMaxStep, hgt])
    · intro y hy
      rcases List.mem_cons.mp hy with rfl | hmem
      · cases acc with
        | none => exact hacc2 y (by simp [pyMaxStep])
        | some a0 =>
          by_cases hgt : key a0 < key y
          · exact hacc2 y (by simp [pyMaxStep, hgt])
          · have := hacc2 a0 (by simp [pyMaxStep, hgt])
            omega
      · exact hxs y hmem

/-- Non-failing runs of the selection loop keep the head landmark, never
shrink the list, and add at most one landmark per round. -/
theorem sl_loop_shape (fuel : Nat) (adj : Adj) (cands : List Nat) :
    ∀ (n : Nat) L0 L, sl_loop fuel adj cands n L0 = .ok L →
      L.head? = L0.head? ∧ L0.length ≤ L.length ∧ L.length ≤ L0.length + n := by
  intro n
  induction n with
  | zero =>
    intro L0 L h
    simp only [sl_loop] at h
    injection h with h
    subst h
    exact ⟨rfl, le_refl _, by omega⟩
  | succ k ih =>
    intro L0 L h
    simp only [sl_loop] at h
    split at h
    · exact Except.noConfusion h
    · rename_i last hlast
      split at h
      · exact Except.noConfusion h
      · rename_i dist hdij
        split at h
        · exact Except.noConfusion h
        · rename_i far hmax
          have hL0 : L0 ≠ [] := by
            intro he
            subst he
            simp at hlast
          obtain ⟨hhead, hlo, hhi⟩ := ih _ L h
          by_cases hfar : far ∈ L0
          · rw [if_pos hfar] at hhead hlo hhi
            exact ⟨hhead, hlo, by omega⟩
          · rw [if_neg hfar] at hhead hlo hhi
            cases L0 with
            | nil => exact absurd rfl hL0
            | cons a rest =>
              refine ⟨by simpa using hhead, by simp at hlo ⊢; omega, ?_⟩
              simp at hhi ⊢
              omega

/-- C8 counterexample: on the two-node cycle with `k = 3` the farthest pick
repeats an existing landmark and is skipped, so only 2 landmarks come back,
not `k = 3`. -/
theorem C8_counterexample :
    select_landmarks 50 adjC8 3 = .ok [0, 1] ∧ ([0, 1] : List Nat).length ≠ 3 :=
  ⟨rfl, by decide⟩

/-- C8 amended: for a non-empty graph, `select_landmarks` returns a non-empty
sequence of **at most** `k` node ids (repeat picks are skipped, so fewer than
`k` may come back), headed by a highest-out-degree node; an empty graph gives
`[]` and `k ≤ 0` gives exactly the seed. -/
theorem C8_select_landmarks_amended (fuel : Nat) (adj : Adj) (k : Int) (L : List Nat)
    (h : select_landmarks fuel adj k = .ok L) :
    (adj.isEmpty = true → L = []) ∧
    (adj.isEmpty = false →
      ∃ seed, L.head? = some seed ∧ seed ∈ akeys adj ∧
        (∀ u ∈ akeys adj, (edgesOf adj u).length ≤ (edgesOf adj seed).length) ∧
        1 ≤ L.length ∧ L.length ≤ (max 1 k).toNat ∧
        (k ≤ 0 → L = [seed])) := by
  unfold select_landmarks at h
  by_cases hemp : adj.isEmpty = true
  · rw [if_pos hemp] at h
    injection h with h
    subst h
    exact ⟨fun _ => rfl, fun hf => absurd hemp (by simp [hf])⟩
  · rw [if_neg hemp] at h
    refine ⟨fun ht => absurd ht hemp, fun _ => ?_⟩
    split at h
    · rename_i hmax
      exfalso
      cases hadj : adj with
      | nil => rw [hadj] at hemp; exact hemp rfl
      | cons p rest =>
        have h2 : (akeys adj).foldl
            (pyMaxStep (fun a b : Nat => decide (b < a)) (fun u => (edgesOf adj u).length))
            none = none := hmax
        rw [hadj] at h2
        simp only [akeys, List.map_cons, List.foldl_cons, pyMaxStep] at h2
        have hs := pyMax_fold_isSome (fun a b : Nat => decide (b < a))
          (fun u => (edgesOf adj u).length) (List.map Prod.fst rest) p.1
        rw [hadj] at hs
        rw [h2] at hs
        exact Bool.noConfusion hs
    · rename_i seed hmax
      obtain ⟨hhead, hlo, hhi⟩ := sl_loop_shape fuel adj _ _ _ _ h
      have hseedmem : seed ∈ akeys adj := by
        rcases pyMax_fold_mem _ _ _ _ _ hmax with hc | hc
        · exact Option.noConfusion hc
        · exact hc
      have hseedmax := (pyMax_fold_nat_max (fun u => (edgesOf adj u).length)
        (akeys adj) none seed hmax).2
      refine ⟨seed, by simpa using hhead, hseedmem, hseedmax, by simpa using hlo, ?_, ?_⟩
      · simp only [List.length_singleton] at hhi
        omega
      · intro hk
        have : (max 1 k - 1).toNat = 0 := by omega
        rw [this] at h
        simp only [sl_loop] at h
        injection h with h
        exact h.symm

/-- Witness for C8 amended on the two-node cycle with `k = 3`. -/
theorem C8_witness :
    (adjC8.isEmpty = true → ([0, 1] : List Nat) = []) ∧
    (adjC8.isEmpty = false →
      ∃ seed, ([0, 1] : List Nat).head? = some seed ∧ seed ∈ akeys adjC8 ∧
        (∀ u ∈ akeys adjC8, (edgesOf adjC8 u).length ≤ (edgesOf adjC8 seed).length) ∧
        1 ≤ ([0, 1] : List Nat).length ∧ ([0, 1] : List Nat).length ≤ (max 1 (3 : Int)).toNat ∧
        ((3 : Int) ≤ 0 → ([0, 1] : List Nat) = [seed])) :=
  C8_select_landmarks_amended 50 adjC8 3 [0, 1] rfl

/-! ### C4 -/

/-- `sss_expand` keeps every queued node bound in the distance map. -/
theorem sss_expand_inv (d : ℤ) :
    ∀ (edges : List (Nat × ℤ)) (pq : List SSEntry) (dist : List (Nat × ℤ)),
      (∀ e ∈ pq, (alookup dist e.2).isSome = true) →
      ∀ e ∈ (sss_expand d edges (pq, dist)).1,
        (alookup (sss_expand d edges (pq, dist)).2 e.2).isSome = true := by
  intro edges
  induction edges with
  | nil => intro pq dist h; simpa [sss_expand] using h
  | cons vw rest ih =>
    intro pq dist h
    rcases vw with ⟨v, w⟩
    simp only [sss_expand]
    by_cases hb : sss_better dist v (d + w) = true
    · rw [if_pos hb]
      apply ih
      intro e he
      rcases List.mem_append.mp he with he2 | he2
      · exact alookup_isSome_of_aupdate _ _ _ _ (h e he2)
      · rcases List.mem_singleton.mp he2 with rfl
        rw [alookup_aupdate_self]
        rfl
    · rw [if_neg hb]
      exact ih pq dist h

/-- Every queued node of `dijkstra_from_source` is bound in `dist`, so the
`dist[u]` read never raises: the only lookup into the graph itself is the
tolerant `adj.get(u, [])`. -/
theorem sss_step_preserves (adj : Adj) :
    ∀ st, (∀ e ∈ st.1, (alookup st.2 e.2).isSome = true) →
      (∀ e, sss_step adj st ≠ .fail e) ∧
      (∀ st2, sss_step adj st = .next st2 →
        ∀ e ∈ st2.1, (alookup st2.2 e.2).isSome = true) := by
  intro st hInv
  constructor
  · intro e h
    simp only [sss_step] at h
    split at h
    · exact StepRes.noConfusion h
    · rename_i de u rest hsel
      split at h
      · rename_i halo
        have hmem := (selectMin_mem sssOrd st.1 _ _ hsel).1
        have := hInv _ hmem
        rw [halo] at this
        exact Bool.noConfusion this
      · rename_i du halo
        split at h <;> exact StepRes.noConfusion h
  · intro st2 h e he
    simp only [sss_step] at h
    split at h
    · exact StepRes.noConfusion h
    · rename_i de u rest hsel
      obtain ⟨hmem, hsub, _⟩ := selectMin_mem sssOrd st.1 _ _ hsel
      split at h
      · exact StepRes.noConfusion h
      · rename_i du halo
        split at h
        · injection h with h
          subst h
          exact hInv e (hsub e he)
        · injection h with h
          subst h
          exact sss_expand_inv de (edgesOf adj u) rest st.2
            (fun e2 he2 => hInv e2 (hsub e2 he2)) e he

/-- C4 counterexample: on the malformed graph `{0: [(1, 1)]}` (node 1 is an
edge target but not a key), `bfs(adj, 0, 2)` raises `KeyError` when it
expands node 1 instead of returning a normal result. -/
theorem C4_counterexample : bfs 1000 adjM 0 2 = .error .keyError := rfl

/-- C4 amended: only `dijkstra_from_source` (landmarks.py) tolerates a node
absent from the adjacency keys, by `adj.get(u, [])` — it can never raise a
key error.  The frontier searches in algorithms.py index `adj[node]`
directly and raise `KeyError` when they expand such a node (unless it is the
goal, tested before expansion): shown for `bfs` and `dijkstra` on `adjM`. -/
theorem C4_missing_node_tolerance :
    (∀ fuel adj src, dijkstra_from_source fuel adj src ≠ .error .keyError) ∧
    bfs 1000 adjM 0 2 = .error .keyError ∧
    dijkstra 1000 adjM 0 2 = .error .keyError := by
  refine ⟨?_, rfl, rfl⟩
  intro fuel adj src
  apply runLoop_no_fail (sss_step adj)
    (fun st => ∀ e ∈ st.1, (alookup st.2 e.2).isSome = true)
    (sss_step_preserves adj) fuel
  intro e he
  rcases List.mem_singleton.mp he with rfl
  simp [alookup]

/-! ### C2 -/

/-- C2 (the code bug): the ALT heuristic built by `build_tables` +
`alt_heuristic_factory` from landmark 3 on the directed graph `adjB`
estimates `h(1, 2) = 19` although `[1, 2]` is a path of cost `1`, so the
estimate exceeds the true shortest distance from 1 to the goal 2 — the
absolute values `|d(L,t) - d(L,s)|` are only lower bounds for undirected
distances, while the code's comment claims admissibility. -/
theorem C2_alt_heuristic_overestimates :
    (build_tables 100 adjB [3]).map (fun t => alt_heuristic_factory 2 t.1 t.2 1 2) =
      .ok 19 ∧
    validPath adjB 1 2 [1, 2] = true ∧ pathCost adjB [1, 2] = some 1 ∧
    ¬ ((19 : ℤ) ≤ 1) :=
  ⟨rfl, rfl, rfl, by norm_num⟩

/-! ### C1 -/

/-- C1 (the code bug): on `adjB` with landmark 3, `a_star` guided by the ALT
heuristic returns cost 10 via `[0, 2]` while `dijkstra` (and hence
`bidirectional_dijkstra`) returns the true optimum 2 via `[0, 1, 2]` — the
three algorithms do not agree because the ALT heuristic is not admissible on
directed graphs. -/
theorem C1_alt_breaks_agreement :
    (build_tables 100 adjB [3]).map
        (fun t => a_star 100 adjB 0 2 (alt_heuristic_factory 2 t.1 t.2)) =
      .ok (.ok (some [0, 2], some 10)) ∧
    dijkstra 100 adjB 0 2 = .ok (some [0, 1, 2], some 2) ∧
    bidirectional_dijkstra 100 adjB 0 2 = .ok (some [0, 1, 2], some 2) ∧
    validPath adjB 0 2 [0, 1, 2] = true ∧ pathCost adjB [0, 1, 2] = some 2 ∧
    ¬ ((10 : ℤ) = 2) :=
  ⟨rfl, rfl, rfl, rfl, rfl, by norm_num⟩

/-! ### C9 -/

/-- C9 counterexample: `zero` is given mismatched shapes (a scalar and a
pair) and still returns the numeric estimate `0.0` instead of raising. -/
theorem C9_counterexample :
    zero (.int 0) (.tup [1, 2]) = .ok 0 ∧
    bothInt (.int 0) (.tup [1, 2]) = false ∧
    bothPair (.int 0) (.tup [1, 2]) = false := ⟨rfl, rfl, rfl⟩

/-- C9 amended: `zero` accepts any shapes and returns `0.0`; `manhattan`,
`euclidean`, `chebyshev` and `octile` raise exactly on mismatched or
unsupported shapes (not both ints, not both pairs of length 2) and return a
value `≥ 0` on supported ones; `haversine` raises on anything but two pairs
and returns a value `≥ 0` on two pairs. -/
theorem C9_heuristics_amended (u v : HNode) :
    zero u v = .ok 0 ∧
    ((bothInt u v || bothPair u v) = false →
      manhattan u v = .error () ∧ euclidean u v = .error () ∧
      chebyshev u v = .error () ∧ octile u v = .error ()) ∧
    ((bothInt u v || bothPair u v) = true →
      (∃ r, manhattan u v = .ok r ∧ 0 ≤ r) ∧ (∃ r, euclidean u v = .ok r ∧ 0 ≤ r) ∧
      (∃ r, chebyshev u v = .ok r ∧ 0 ≤ r) ∧ (∃ r, octile u v = .ok r ∧ 0 ≤ r)) ∧
    (bothPair u v = false → haversine u v = .error ()) ∧
    (bothPair u v = true → ∃ r, haversine u v = .ok r ∧ 0 ≤ r) := by
  have hsqrt2 : (0 : ℝ) ≤ Real.sqrt 2 - 1 := by
    have h1 : (1 : ℝ) ≤ Real.sqrt 2 := by
      rw [show (1 : ℝ) = Real.sqrt 1 from (Real.sqrt_one).symm]
      exact Real.sqrt_le_sqrt (by norm_num)
    linarith
  rcases u with i | l <;> rcases v with j | m
  · exact ⟨rfl, fun h => by simp [bothInt] at h,
      fun _ => ⟨⟨_, rfl, abs_nonneg _⟩, ⟨_, rfl, abs_nonneg _⟩, ⟨_, rfl, abs_nonneg _⟩,
        ⟨_, rfl, abs_nonneg _⟩⟩,
      fun _ => rfl, fun h => by simp [bothPair] at h⟩
  · exact ⟨rfl, fun _ => ⟨rfl, rfl, rfl, rfl⟩, fun h => by simp [bothInt, bothPair] at h,
      fun _ => rfl, fun h => by simp [bothPair] at h⟩
  · rcases l with _ | ⟨a, _ | ⟨b, _ | ⟨c, t⟩⟩⟩ <;>
      exact ⟨rfl, fun _ => ⟨rfl, rfl, rfl, rfl⟩, fun h => by simp [bothInt, bothPair] at h,
        fun _ => rfl, fun h => by simp [bothPair] at h⟩
  · rcases l with _ | ⟨a, _ | ⟨b, _ | ⟨c, t⟩⟩⟩ <;> rcases m with _ | ⟨a2, _ | ⟨b2, _ | ⟨c2, t2⟩⟩⟩ <;>
      first
      | exact ⟨rfl, fun _ => ⟨rfl, rfl, rfl, rfl⟩,
          fun h => by simp [bothInt, bothPair] at h,
          fun _ => rfl, fun h => by simp [bothPair] at h⟩
      | exact ⟨rfl, fun h => by simp [bothInt, bothPair] at h,
          fun _ => ⟨⟨_, rfl, add_nonneg (abs_nonneg _) (abs_nonneg _)⟩,
            ⟨_, rfl, Real.sqrt_nonneg _⟩,
            ⟨_, rfl, le_max_of_le_left (abs_nonneg _)⟩,
            ⟨_, rfl, add_nonneg (le_max_of_le_left (abs_nonneg _))
              (mul_nonneg hsqrt2 (le_min (abs_nonneg _) (abs_nonneg _)))⟩⟩,
          fun h => by simp [bothPair] at h,
          fun _ => ⟨_, rfl, mul_nonneg (by norm_num)
            (Real.arcsin_nonneg.mpr (Real.sqrt_nonneg _))⟩⟩

/-! ### C7: infrastructure

`C7` speaks about queries whose endpoints lie in different weak components.
`undConn adj x y` is the mathematical weak-connectivity relation (the
reflexive-transitive closure of "some directed edge joins x and y, in either
direction"); a query crossing components can never be reached by any search,
and every loop terminates because a potential (queue length plus the summed
out-degrees of unexpanded keys) strictly decreases. -/

/-- Some edge `x→y` or `y→x` exists: one undirected step. -/
def undAdjB (adj : Adj) (x y : Nat) : Bool :=
  (edgesOf adj x).any (fun e => e.1 == y) || (edgesOf adj y).any (fun e => e.1 == x)

/-- Weak connectivity: the reflexive-transitive closure of `undAdjB`. -/
def undConn (adj : Adj) (x y : Nat) : Prop :=
  Relation.ReflTransGen (fun a b => undAdjB adj a b = true) x y

/-- Every node mentioned by an edge list entry is a key: `wellFormedB` is the
graph hygiene C7 needs (a malformed graph raises `KeyError` instead, see the
C7 counterexample). -/
def wellFormedB (adj : Adj) : Bool :=
  adj.all (fun ue => ue.2.all (fun e => decide (e.1 ∈ akeys adj)))

/-- Every edge weight is non-negative. -/
def nonnegB (adj : Adj) : Bool :=
  adj.all (fun ue => ue.2.all (fun e => decide (0 ≤ e.2)))

theorem undAdjB_symm (adj : Adj) (x y : Nat) : undAdjB adj x y = undAdjB adj y x := by
  simp only [undAdjB]
  exact Bool.or_comm _ _

theorem undConn_symm {adj : Adj} {x y : Nat} (h : undConn adj x y) : undConn adj y x := by
  induction h with
  | refl => exact Relation.ReflTransGen.refl
  | tail h1 h2 ih =>
    rename_i b c
    have hb : undAdjB adj c b = true := by rw [undAdjB_symm]; exact h2
    exact Relation.ReflTransGen.head hb ih

theorem undAdjB_of_edge {adj : Adj} {u v : Nat} {w : ℤ}
    (h : (v, w) ∈ edgesOf adj u) : undAdjB adj u v = true := by
  simp only [undAdjB, Bool.or_eq_true, List.any_eq_true]
  exact .inl ⟨(v, w), h, by simp⟩

theorem undConn_step {adj : Adj} {s u v : Nat} {w : ℤ} (h : undConn adj s u)
    (he : (v, w) ∈ edgesOf adj u) : undConn adj s v :=
  Relation.ReflTransGen.tail h (undAdjB_of_edge he)

theorem wellFormedB_mem {adj : Adj} (hwf : wellFormedB adj = true) {u v : Nat} {w : ℤ}
    (h : (v, w) ∈ edgesOf adj u) : v ∈ akeys adj := by
  simp only [wellFormedB, List.all_eq_true] at hwf
  simp only [edgesOf] at h
  rcases halo : alookup adj u with _ | es
  · rw [halo] at h; simp at h
  · rw [halo] at h
    simp only [Option.getD_some] at h
    have hmem := alookup_mem adj u es halo
    have := hwf _ hmem _ h
    simpa using this

theorem nonnegB_mem {adj : Adj} (hnn : nonnegB adj = true) {u v : Nat} {w : ℤ}
    (h : (v, w) ∈ edgesOf adj u) : 0 ≤ w := by
  simp only [nonnegB, List.all_eq_true] at hnn
  simp only [edgesOf] at h
  rcases halo : alookup adj u with _ | es
  · rw [halo] at h; simp at h
  · rw [halo] at h
    simp only [Option.getD_some] at h
    have hmem := alookup_mem adj u es halo
    have := hnn _ hmem _ h
    simpa using this

theorem alookup_some_of_mem_akeys {β : Type} {m : List (Nat × β)} {k : Nat}
    (h : k ∈ akeys m) : ∃ v, alookup m k = some v := by
  have := (alookup_isSome_iff_mem_akeys m k).mpr h
  rcases halo : alookup m k with _ | v
  · rw [halo] at this; exact Bool.noConfusion this
  · exact ⟨v, rfl⟩

theorem mem_aupdate {β : Type} {m : List (Nat × β)} {k : Nat} {v : β} {p : Nat × β}
    (h : p ∈ aupdate m k v) : p = (k, v) ∨ p ∈ m := by
  induction m with
  | nil => simpa [aupdate] using h
  | cons q rest ih =>
    simp only [aupdate] at h
    by_cases hk : k = q.1
    · rw [if_pos hk] at h
      rcases List.mem_cons.mp h with h2 | h2
      · left; rw [h2, hk]
      · right; exact List.mem_cons_of_mem _ h2
    · rw [if_neg hk] at h
      rcases List.mem_cons.mp h with h2 | h2
      · right; exact h2 ▸ List.mem_cons_self _ _
      · rcases ih h2 with h3 | h3
        · left; exact h3
        · right; exact List.mem_cons_of_mem _ h3

theorem alookup_of_mem_nodup {β : Type} {m : List (Nat × β)} {k : Nat} {es : β}
    (hnd : (akeys m).Nodup) (h : (k, es) ∈ m) : alookup m k = some es := by
  induction m with
  | nil => simp at h
  | cons q rest ih =>
    simp only [akeys, List.map_cons, List.nodup_cons] at hnd
    rcases List.mem_cons.mp h with h2 | h2
    · rw [← h2]
      simp [alookup]
    · have hk : k ≠ q.1 := by
        intro he
        apply hnd.1
        subst he
        exact List.mem_map.mpr ⟨(q.1, es), h2, rfl⟩
      simp only [alookup]
      rw [if_neg hk]
      exact ih hnd.2 h2

theorem mem_akeys_aupdate {β : Type} (m : List (Nat × β)) (k : Nat) (v : β) (y : Nat) :
    y ∈ akeys (aupdate m k v) ↔ y ∈ akeys m ∨ y = k := by
  constructor
  · intro h
    obtain ⟨w, hw⟩ := alookup_some_of_mem_akeys h
    by_cases hy : y = k
    · exact .inr hy
    · rw [alookup_aupdate_ne _ _ _ _ hy] at hw
      left
      exact (alookup_isSome_iff_mem_akeys m y).mp (by rw [hw]; rfl)
  · intro h
    rcases h with h | h
    · obtain ⟨w, hw⟩ := alookup_some_of_mem_akeys h
      by_cases hy : y = k
      · subst hy
        exact (alookup_isSome_iff_mem_akeys _ y).mp (by rw [alookup_aupdate_self]; rfl)
      · exact (alookup_isSome_iff_mem_akeys _ y).mp
          (by rw [alookup_aupdate_ne _ _ _ _ hy, hw]; rfl)
    · subst h
      exact (alookup_isSome_iff_mem_akeys _ y).mp (by rw [alookup_aupdate_self]; rfl)

/-- The remaining work: summed out-degrees (plus `c` per node) of the keys not
yet in `vis`. -/
def degSum (adj : Adj) (vis : List Nat) (c : Nat) : Nat :=
  ((adj.filter (fun ue => decide (ue.1 ∉ vis))).map (fun ue => ue.2.length + c)).sum

theorem degSum_congr (adj : Adj) (vis vis2 : List Nat) (c : Nat)
    (h : ∀ y, y ∈ vis ↔ y ∈ vis2) : degSum adj vis c = degSum adj vis2 c := by
  unfold degSum
  congr 1
  congr 1
  apply List.filter_congr
  intro ue _
  simp [h ue.1]

theorem degSum_mono_insert (adj : Adj) (vis : List Nat) (x : Nat) (c : Nat) :
    degSum adj (x :: vis) c ≤ degSum adj vis c := by
  induction adj with
  | nil => simp [degSum]
  | cons ue rest ih =>
    simp only [degSum] at ih ⊢
    by_cases h2 : ue.1 ∈ x :: vis
    · rw [List.filter_cons_of_neg (by simp [h2])]
      by_cases h1 : ue.1 ∈ vis
      · rw [List.filter_cons_of_neg (by simp [h1])]
        exact ih
      · rw [List.filter_cons_of_pos (by simp [h1])]
        simp only [List.map_cons, List.sum_cons]
        omega
    · have h1 : ue.1 ∉ vis := fun hc => h2 (List.mem_cons_of_mem _ hc)
      rw [List.filter_cons_of_pos (by simp [h2]), List.filter_cons_of_pos (by simp [h1])]
      simp only [List.map_cons, List.sum_cons]
      omega

theorem degSum_remove (adj : Adj) (vis : List Nat) (c : Nat) (x : Nat) (es : List (Nat × ℤ))
    (hnd : (akeys adj).Nodup) (hlk : alookup adj x = some es) (hx : x ∉ vis) :
    degSum adj vis c = degSum adj (x :: vis) c + (es.length + c) := by
  induction adj with
  | nil => simp [alookup] at hlk
  | cons ue rest ih =>
    simp only [akeys, List.map_cons, List.nodup_cons] at hnd
    simp only [alookup] at hlk
    by_cases he : x = ue.1
    · rw [if_pos he] at hlk
      injection hlk with hlk
      subst hlk
      have hfilt : ∀ ve ∈ rest, (decide (ve.1 ∉ (x :: vis)) : Bool) = decide (ve.1 ∉ vis) := by
        intro ve hve
        have : ve.1 ≠ x := by
          intro h2
          apply hnd.1
          rw [he] at h2
          rw [← h2]
          exact List.mem_map.mpr ⟨ve, hve, rfl⟩
        simp [this]
      have hrest : degSum rest (x :: vis) c = degSum rest vis c := by
        unfold degSum
        congr 1
        congr 1
        exact List.filter_congr hfilt
      simp only [degSum]
      have hin : ue.1 ∈ x :: vis := by rw [← he]; exact List.mem_cons_self _ _
      have hnotin : ue.1 ∉ vis := by rw [← he]; exact hx
      simp only [List.filter_cons]
      rw [if_pos (decide_eq_true hnotin),
        if_neg (by simp only [decide_eq_true_eq]; intro hc; exact hc hin)]
      simp only [List.map_cons, List.sum_cons]
      simp only [degSum] at hrest
      omega
    · rw [if_neg he] at hlk
      have hih := ih hnd.2 hlk
      simp only [degSum]
      by_cases h1 : ue.1 ∈ vis
      · have h2 : ue.1 ∈ x :: vis := List.mem_cons_of_mem _ h1
        rw [List.filter_cons_of_neg (by simp [h1]), List.filter_cons_of_neg (by simp [h2])]
        simpa [degSum] using hih
      · have h2 : ue.1 ∉ x :: vis := by
          intro hmem
          rcases List.mem_cons.mp hmem with h3 | h3
          · exact he h3.symm
          · exact h1 h3
        rw [List.filter_cons_of_pos (by simp [h1]), List.filter_cons_of_pos (by simp [h2])]
        simp only [List.map_cons, List.sum_cons]
        simp only [degSum] at hih
        omega

/-- `0 ≤` version of `degSum` comparison between the two `c` constants used. -/
theorem degSum_c_mono (adj : Adj) (vis : List Nat) :
    degSum adj vis 0 ≤ degSum adj vis 1 := by
  unfold degSum
  induction (adj.filter (fun ue => decide (ue.1 ∉ vis))) with
  | nil => simp
  | cons ue rest ih => simp only [List.map_cons, List.sum_cons]; omega

/-- Fuel that outlasts every search of C7. -/
def fuelBound (adj : Adj) : Nat := 3 + 2 * degSum adj [] 1

theorem foldl_preserve {α σ : Type} (P : σ → Prop) (f : σ → α → σ) :
    ∀ (l : List α) (init : σ), P init → (∀ st a, a ∈ l → P st → P (f st a)) →
      P (l.foldl f init) := by
  intro l
  induction l with
  | nil => intro init h _; exact h
  | cons x xs ih =>
    intro init h hstep
    simp only [List.foldl_cons]
    exact ih _ (hstep init x (List.mem_cons_self _ _) h)
      (fun st a ha => hstep st a (List.mem_cons_of_mem _ ha))

theorem runLoop_ok_inv {σ ρ : Type} (step : σ → StepRes σ ρ) (Inv : σ → Prop)
    (Q : ρ → Prop)
    (hstep : ∀ st, Inv st → (∀ st2, step st = .next st2 → Inv st2) ∧
      (∀ r, step st = .done r → Q r)) :
    ∀ fuel st r, Inv st → runLoop step fuel st = .ok r → Q r := by
  intro fuel
  induction fuel with
  | zero => intro st r _ h; simp [runLoop] at h
  | succ n ih =>
    intro st r hInv h
    unfold runLoop at h
    cases hst : step st with
    | next st2 =>
      rw [hst] at h
      exact ih st2 r ((hstep st hInv).1 st2 hst) h
    | done r2 =>
      rw [hst] at h
      have hr : r2 = r := Except.ok.inj h
      subst hr
      exact (hstep st hInv).2 r2 hst
    | fail e =>
      rw [hst] at h
      exact Except.noConfusion h

/-- In the lexicographic entry order a non-smaller entry has a non-smaller
first component. -/
theorem lexOrd_fst_le {β : Type} (oB : SOrd β) (x y : ℤ × β)
    (h : (lexOrd intOrd oB).lt x y = false) : y.1 ≤ x.1 := by
  simp only [lexOrd] at h
  by_cases he : x.1 = y.1
  · rw [he]
  · rw [if_neg he] at h
    simp only [intOrd] at h
    have : ¬ (x.1 < y.1) := by simpa using h
    omega

/-! ### C7: the uninformed searches return the sentinel -/

theorem bfs_sentinel (adj : Adj) (s g : Nat)
    (hwf : wellFormedB adj = true) (hnd : (akeys adj).Nodup)
    (hs : s ∈ akeys adj) (hcross : ¬ undConn adj s g) :
    ∀ fuel, fuelBound adj < fuel → bfs fuel adj s g = .ok (none, none) := by
  intro fuel hfuel
  have hstep : ∀ st : List (Nat × List Nat) × List Nat,
      (∀ e ∈ st.1, undConn adj s e.1 ∧ e.1 ∈ akeys adj) →
      (∃ r, bfs_step adj g st = .done r ∧ r = ((none, none) : SRes)) ∨
      (∃ st2, bfs_step adj g st = .next st2 ∧
        (∀ e ∈ st2.1, undConn adj s e.1 ∧ e.1 ∈ akeys adj) ∧
        st2.1.length + degSum adj st2.2 0 < st.1.length + degSum adj st.2 0) := by
    intro st hInv
    rcases st with ⟨q, vis⟩
    cases q with
    | nil => exact .inl ⟨(none, none), rfl, rfl⟩
    | cons top rest =>
      rcases top with ⟨node, path⟩
      have hnode := hInv (node, path) (List.mem_cons_self _ _)
      have hng : node ≠ g := fun he => hcross (he ▸ hnode.1)
      right
      by_cases hv : node ∈ vis
      · refine ⟨(rest, vis), ?_, ?_, ?_⟩
        · simp only [bfs_step]
          rw [if_neg hng, if_pos hv]
        · intro e he
          exact hInv e (List.mem_cons_of_mem _ he)
        · simp only [List.length_cons]
          omega
      · obtain ⟨es, hes⟩ := alookup_some_of_mem_akeys hnode.2
        refine ⟨(rest ++ (es.filter (fun e => decide (e.1 ∉ node :: vis))).map
          (fun e => (e.1, path ++ [e.1])), node :: vis), ?_, ?_, ?_⟩
        · simp only [bfs_step]
          rw [if_neg hng, if_neg hv, hes]
        · intro e he
          rcases List.mem_append.mp he with h2 | h2
          · exact hInv e (List.mem_cons_of_mem _ h2)
          · obtain ⟨ew, hmem, hmap⟩ := List.mem_map.mp h2
            have hmem2 := (List.mem_filter.mp hmem).1
            have hedge : ew ∈ edgesOf adj node := by
              rw [edgesOf, hes]
              exact hmem2
            subst hmap
            exact ⟨undConn_step hnode.1 hedge, wellFormedB_mem hwf hedge⟩
        · have hrem := degSum_remove adj vis 0 node es hnd hes hv
          have hflt := List.length_filter_le
            (fun e => decide (e.1 ∉ node :: vis)) es
          simp only [List.length_cons, List.length_append, List.length_map]
          omega
  obtain ⟨r, hrun, hr⟩ := runLoop_ok_of_measure (bfs_step adj g) _ _ _ hstep fuel
    ([(s, [s])], [])
    (by
      intro e he
      rcases List.mem_singleton.mp he with rfl
      exact ⟨Relation.ReflTransGen.refl, hs⟩)
    (by
      have := degSum_c_mono adj []
      simp only [List.length_singleton]
      unfold fuelBound at hfuel
      omega)
  subst hr
  exact hrun

theorem dfs_sentinel (adj : Adj) (s g : Nat)
    (hwf : wellFormedB adj = true) (hnd : (akeys adj).Nodup)
    (hs : s ∈ akeys adj) (hcross : ¬ undConn adj s g) :
    ∀ fuel, fuelBound adj < fuel → dfs fuel adj s g = .ok (none, none) := by
  intro fuel hfuel
  have hstep : ∀ st : List (Nat × List Nat) × List Nat,
      (∀ e ∈ st.1, undConn adj s e.1 ∧ e.1 ∈ akeys adj) →
      (∃ r, dfs_step adj g st = .done r ∧ r = ((none, none) : SRes)) ∨
      (∃ st2, dfs_step adj g st = .next st2 ∧
        (∀ e ∈ st2.1, undConn adj s e.1 ∧ e.1 ∈ akeys adj) ∧
        st2.1.length + degSum adj st2.2 0 < st.1.length + degSum adj st.2 0) := by
    intro st hInv
    rcases st with ⟨q, vis⟩
    cases q with
    | nil => exact .inl ⟨(none, none), rfl, rfl⟩
    | cons top rest =>
      rcases top with ⟨node, path⟩
      have hnode := hInv (node, path) (List.mem_cons_self _ _)
      have hng : node ≠ g := fun he => hcross (he ▸ hnode.1)
      right
      by_cases hv : node ∈ vis
      · refine ⟨(rest, vis), ?_, ?_, ?_⟩
        · simp only [dfs_step]
          rw [if_neg hng, if_pos hv]
        · intro e he
          exact hInv e (List.mem_cons_of_mem _ he)
        · simp only [List.length_cons]
          omega
      · obtain ⟨es, hes⟩ := alookup_some_of_mem_akeys hnode.2
        refine ⟨((es.map (fun e => (e.1, path ++ [e.1]))).reverse ++ rest,
          node :: vis), ?_, ?_, ?_⟩
        · simp only [dfs_step]
          rw [if_neg hng, if_neg hv, hes]
        · intro e he
          rcases List.mem_append.mp he with h2 | h2
          · obtain ⟨ew, hmem, hmap⟩ := List.mem_map.mp (List.mem_reverse.mp h2)
            have hedge : ew ∈ edgesOf adj node := by
              rw [edgesOf, hes]
              exact hmem
            subst hmap
            exact ⟨undConn_step hnode.1 hedge, wellFormedB_mem hwf hedge⟩
          · exact hInv e (List.mem_cons_of_mem _ h2)
        · have hrem := degSum_remove adj vis 0 node es hnd hes hv
          simp only [List.length_cons, List.length_append, List.length_reverse,
            List.length_map]
          omega
  obtain ⟨r, hrun, hr⟩ := runLoop_ok_of_measure (dfs_step adj g) _ _ _ hstep fuel
    ([(s, [s])], [])
    (by
      intro e he
      rcases List.mem_singleton.mp he with rfl
      exact ⟨Relation.ReflTransGen.refl, hs⟩)
    (by
      have := degSum_c_mono adj []
      simp only [List.length_singleton]
      unfold fuelBound at hfuel
      omega)
  subst hr
  exact hrun

theorem greedy_sentinel (adj : Adj) (s g : Nat) (hz : Nat → Nat → ℤ)
    (hwf : wellFormedB adj = true) (hnd : (akeys adj).Nodup)
    (hs : s ∈ akeys adj) (hcross : ¬ undConn adj s g) :
    ∀ fuel, fuelBound adj < fuel → greedy_best fuel adj s g hz = .ok (none, none) := by
  intro fuel hfuel
  have hstep : ∀ st : List GreedyEntry × List Nat,
      (∀ e ∈ st.1, undConn adj s e.2.1 ∧ e.2.1 ∈ akeys adj) →
      (∃ r, greedy_step adj g hz st = .done r ∧ r = ((none, none) : SRes)) ∨
      (∃ st2, greedy_step adj g hz st = .next st2 ∧
        (∀ e ∈ st2.1, undConn adj s e.2.1 ∧ e.2.1 ∈ akeys adj) ∧
        st2.1.length + degSum adj st2.2 0 < st.1.length + degSum adj st.2 0) := by
    intro st hInv
    rcases hsel : selectMin greedyOrd st.1 with _ | ⟨e, rest⟩
    · exact .inl ⟨(none, none), by simp only [greedy_step, hsel], rfl⟩
    · obtain ⟨hemem, hsub, hlen⟩ := selectMin_mem greedyOrd st.1 e rest hsel
      rcases e with ⟨hval, node, path, cost⟩
      have hnode := hInv _ hemem
      have hng : node ≠ g := fun he => hcross (he ▸ hnode.1)
      right
      by_cases hv : node ∈ st.2
      · refine ⟨(rest, st.2), ?_, ?_, ?_⟩
        · simp only [greedy_step, hsel]
          rw [if_neg hng, if_pos hv]
        · intro e2 he2
          exact hInv e2 (hsub e2 he2)
        · dsimp only
          omega
      · obtain ⟨es, hes⟩ := alookup_some_of_mem_akeys hnode.2
        refine ⟨(rest ++ es.map (fun e => (hz e.1 g, e.1, path ++ [e.1], cost + e.2)),
          node :: st.2), ?_, ?_, ?_⟩
        · simp only [greedy_step, hsel]
          rw [if_neg hng, if_neg hv, hes]
        · intro e2 he2
          rcases List.mem_append.mp he2 with h2 | h2
          · exact hInv e2 (hsub e2 h2)
          · obtain ⟨ew, hmem, hmap⟩ := List.mem_map.mp h2
            have hedge : ew ∈ edgesOf adj node := by
              rw [edgesOf, hes]
              exact hmem
            subst hmap
            exact ⟨undConn_step hnode.1 hedge, wellFormedB_mem hwf hedge⟩
        · have hrem := degSum_remove adj st.2 0 node es hnd hes hv
          simp only [List.length_append, List.length_map]
          omega
  obtain ⟨r, hrun, hr⟩ := runLoop_ok_of_measure (greedy_step adj g hz) _ _ _ hstep fuel
    ([(hz s g, s, [s], 0)], [])
    (by
      intro e he
      rcases List.mem_singleton.mp he with rfl
      exact ⟨Relation.ReflTransGen.refl, hs⟩)
    (by
      have := degSum_c_mono adj []
      simp only [List.length_singleton]
      unfold fuelBound at hfuel
      omega)
  subst hr
  exact hrun

/-! ### C7: the cost-ordered searches return the sentinel

With non-negative weights the popped costs of `dijkstra`/`a_star` never fall
below any recorded visited cost, so `visited[node] <= cost` always holds for
a visited node: a node is expanded at most once and the same potential as for
breadth-first search decreases. -/

theorem dijkstra_sentinel (adj : Adj) (s g : Nat)
    (hwf : wellFormedB adj = true) (hnn : nonnegB adj = true)
    (hnd : (akeys adj).Nodup) (hs : s ∈ akeys adj) (hcross : ¬ undConn adj s g) :
    ∀ fuel, fuelBound adj < fuel → dijkstra fuel adj s g = .ok (none, none) := by
  intro fuel hfuel
  have hstep : ∀ st : List DijEntry × List (Nat × ℤ),
      ((∀ e ∈ st.1, undConn adj s e.2.1 ∧ e.2.1 ∈ akeys adj) ∧
        (∀ p ∈ st.2, p.1 ∈ akeys adj ∧ ∀ e ∈ st.1, p.2 ≤ e.1)) →
      (∃ r, dijkstra_step adj g st = .done r ∧ r = ((none, none) : SRes)) ∨
      (∃ st2, dijkstra_step adj g st = .next st2 ∧
        ((∀ e ∈ st2.1, undConn adj s e.2.1 ∧ e.2.1 ∈ akeys adj) ∧
          (∀ p ∈ st2.2, p.1 ∈ akeys adj ∧ ∀ e ∈ st2.1, p.2 ≤ e.1)) ∧
        st2.1.length + degSum adj (akeys st2.2) 0 <
          st.1.length + degSum adj (akeys st.2) 0) := by
    intro st hInv
    rcases hsel : selectMin dijOrd st.1 with _ | ⟨e, rest⟩
    · exact .inl ⟨(none, none), by simp only [dijkstra_step, hsel], rfl⟩
    · obtain ⟨hemem, hsub, hlen⟩ := selectMin_mem dijOrd st.1 e rest hsel
      have hleast := selectMin_least dijOrd st.1 e rest hsel
      rcases e with ⟨cost, node, path⟩
      have hnode := hInv.1 _ hemem
      have hng : node ≠ g := fun he => hcross (he ▸ hnode.1)
      right
      by_cases hv : visitedLE st.2 node cost = true
      · refine ⟨(rest, st.2), ?_, ⟨?_, ?_⟩, ?_⟩
        · simp only [dijkstra_step, hsel]
          rw [if_neg hng, if_pos hv]
        · intro e2 he2
          exact hInv.1 e2 (hsub e2 he2)
        · intro p hp
          exact ⟨(hInv.2 p hp).1, fun e2 he2 => (hInv.2 p hp).2 e2 (hsub e2 he2)⟩
        · dsimp only
          omega
      · have hnotin : node ∉ akeys st.2 := by
          intro hmem
          obtain ⟨vc, hvc⟩ := alookup_some_of_mem_akeys hmem
          have hvcmem := alookup_mem _ _ _ hvc
          have hle := (hInv.2 _ hvcmem).2 _ hemem
          apply hv
          simp only [visitedLE, hvc]
          simpa using hle
        obtain ⟨es, hes⟩ := alookup_some_of_mem_akeys hnode.2
        refine ⟨(rest ++ es.map (fun e => (cost + e.2, e.1, path ++ [e.1])),
          aupdate st.2 node cost), ?_, ⟨?_, ?_⟩, ?_⟩
        · simp only [dijkstra_step, hsel]
          rw [if_neg hng, if_neg hv, hes]
        · intro e2 he2
          rcases List.mem_append.mp he2 with h2 | h2
          · exact hInv.1 e2 (hsub e2 h2)
          · obtain ⟨ew, hmem, hmap⟩ := List.mem_map.mp h2
            have hedge : ew ∈ edgesOf adj node := by
              rw [edgesOf, hes]
              exact hmem
            subst hmap
            exact ⟨undConn_step hnode.1 hedge, wellFormedB_mem hwf hedge⟩
        · intro p hp
          rcases mem_aupdate hp with hp2 | hp2
          · subst hp2
            refine ⟨hnode.2, ?_⟩
            intro e2 he2
            rcases List.mem_append.mp he2 with h2 | h2
            · exact lexOrd_fst_le _ e2 (cost, node, path) (hleast e2 (hsub e2 h2))
            · obtain ⟨ew, hmem, hmap⟩ := List.mem_map.mp h2
              have hedge : ew ∈ edgesOf adj node := by
                rw [edgesOf, hes]
                exact hmem
              have hw := nonnegB_mem hnn hedge
              subst hmap
              simp only []
              omega
          · have hbase := hInv.2 p hp2
            refine ⟨hbase.1, ?_⟩
            intro e2 he2
            rcases List.mem_append.mp he2 with h2 | h2
            · exact hbase.2 e2 (hsub e2 h2)
            · obtain ⟨ew, hmem, hmap⟩ := List.mem_map.mp h2
              have hedge : ew ∈ edgesOf adj node := by
                rw [edgesOf, hes]
                exact hmem
              have hw := nonnegB_mem hnn hedge
              have hc := hbase.2 _ hemem
              subst hmap
              simp only [] at hc ⊢
              omega
        · have hcong : degSum adj (akeys (aupdate st.2 node cost)) 0 =
              degSum adj (node :: akeys st.2) 0 := by
            apply degSum_congr
            intro y
            rw [mem_akeys_aupdate]
            simp [List.mem_cons, or_comm]
          have hrem := degSum_remove adj (akeys st.2) 0 node es hnd hes hnotin
          simp only [List.length_append, List.length_map]
          omega
  obtain ⟨r, hrun, hr⟩ := runLoop_ok_of_measure (dijkstra_step adj g) _ _ _ hstep fuel
    ([((0 : ℤ), s, [s])], [])
    (by
      constructor
      · intro e he
        rcases List.mem_singleton.mp he with rfl
        exact ⟨Relation.ReflTransGen.refl, hs⟩
      · intro p hp
        simp at hp)
    (by
      have := degSum_c_mono adj []
      simp only [List.length_singleton, akeys, List.map_nil]
      unfold fuelBound at hfuel
      omega)
  subst hr
  exact hrun

theorem a_star_sentinel (adj : Adj) (s g : Nat)
    (hwf : wellFormedB adj = true) (hnn : nonnegB adj = true)
    (hnd : (akeys adj).Nodup) (hs : s ∈ akeys adj) (hcross : ¬ undConn adj s g) :
    ∀ fuel, fuelBound adj < fuel →
      a_star fuel adj s g (fun _ _ => 0) = .ok (none, none) := by
  intro fuel hfuel
  have hstep : ∀ st : List AstarEntry × List (Nat × ℤ),
      ((∀ e ∈ st.1, undConn adj s e.2.2.1 ∧ e.2.2.1 ∈ akeys adj ∧ e.1 = e.2.1) ∧
        (∀ p ∈ st.2, p.1 ∈ akeys adj ∧ ∀ e ∈ st.1, p.2 ≤ e.2.1)) →
      (∃ r, a_star_step adj g (fun _ _ => 0) st = .done r ∧ r = ((none, none) : SRes)) ∨
      (∃ st2, a_star_step adj g (fun _ _ => 0) st = .next st2 ∧
        ((∀ e ∈ st2.1, undConn adj s e.2.2.1 ∧ e.2.2.1 ∈ akeys adj ∧ e.1 = e.2.1) ∧
          (∀ p ∈ st2.2, p.1 ∈ akeys adj ∧ ∀ e ∈ st2.1, p.2 ≤ e.2.1)) ∧
        st2.1.length + degSum adj (akeys st2.2) 0 <
          st.1.length + degSum adj (akeys st.2) 0) := by
    intro st hInv
    rcases hsel : selectMin astarOrd st.1 with _ | ⟨e, rest⟩
    · exact .inl ⟨(none, none), by simp only [a_star_step, hsel], rfl⟩
    · obtain ⟨hemem, hsub, hlen⟩ := selectMin_mem astarOrd st.1 e rest hsel
      have hleast := selectMin_least astarOrd st.1 e rest hsel
      rcases e with ⟨f, gv, node, path⟩
      have hnode := hInv.1 _ hemem
      have hng : node ≠ g := fun he => hcross (he ▸ hnode.1)
      right
      by_cases hv : visitedLE st.2 node gv = true
      · refine ⟨(rest, st.2), ?_, ⟨?_, ?_⟩, ?_⟩
        · simp only [a_star_step, hsel]
          rw [if_neg hng, if_pos hv]
        · intro e2 he2
          exact hInv.1 e2 (hsub e2 he2)
        · intro p hp
          exact ⟨(hInv.2 p hp).1, fun e2 he2 => (hInv.2 p hp).2 e2 (hsub e2 he2)⟩
        · dsimp only
          omega
      · have hnotin : node ∉ akeys st.2 := by
          intro hmem
          obtain ⟨vc, hvc⟩ := alookup_some_of_mem_akeys hmem
          have hvcmem := alookup_mem _ _ _ hvc
          have hle := (hInv.2 _ hvcmem).2 _ hemem
          apply hv
          simp only [visitedLE, hvc]
          simpa using hle
        obtain ⟨es, hes⟩ := alookup_some_of_mem_akeys hnode.2.1
        refine ⟨(rest ++ es.map
            (fun e => (gv + e.2 + (0 : ℤ), gv + e.2, e.1, path ++ [e.1])),
          aupdate st.2 node gv), ?_, ⟨?_, ?_⟩, ?_⟩
        · simp only [a_star_step, hsel]
          rw [if_neg hng, if_neg hv, hes]
        · intro e2 he2
          rcases List.mem_append.mp he2 with h2 | h2
          · exact hInv.1 e2 (hsub e2 h2)
          · obtain ⟨ew, hmem, hmap⟩ := List.mem_map.mp h2
            have hedge : ew ∈ edgesOf adj node := by
              rw [edgesOf, hes]
              exact hmem
            subst hmap
            exact ⟨undConn_step hnode.1 hedge, wellFormedB_mem hwf hedge, by simp⟩
        · intro p hp
          rcases mem_aupdate hp with hp2 | hp2
          · subst hp2
            refine ⟨hnode.2.1, ?_⟩
            intro e2 he2
            rcases List.mem_append.mp he2 with h2 | h2
            · have hfst := lexOrd_fst_le _ e2 (f, gv, node, path)
                (hleast e2 (hsub e2 h2))
              have hfg := (hInv.1 e2 (hsub e2 h2)).2.2
              have hfg2 := hnode.2.2
              dsimp only at hfst hfg hfg2 ⊢
              omega
            · obtain ⟨ew, hmem, hmap⟩ := List.mem_map.mp h2
              have hedge : ew ∈ edgesOf adj node := by
                rw [edgesOf, hes]
                exact hmem
              have hw := nonnegB_mem hnn hedge
              subst hmap
              simp only []
              omega
          · have hbase := hInv.2 p hp2
            refine ⟨hbase.1, ?_⟩
            intro e2 he2
            rcases List.mem_append.mp he2 with h2 | h2
            · exact hbase.2 e2 (hsub e2 h2)
            · obtain ⟨ew, hmem, hmap⟩ := List.mem_map.mp h2
              have hedge : ew ∈ edgesOf adj node := by
                rw [edgesOf, hes]
                exact hmem
              have hw := nonnegB_mem hnn hedge
              have hc := hbase.2 _ hemem
              subst hmap
              simp only [] at hc ⊢
              omega
        · have hcong : degSum adj (akeys (aupdate st.2 node gv)) 0 =
              degSum adj (node :: akeys st.2) 0 := by
            apply degSum_congr
            intro y
            rw [mem_akeys_aupdate]
            simp [List.mem_cons, or_comm]
          have hrem := degSum_remove adj (akeys st.2) 0 node es hnd hes hnotin
          simp only [List.length_append, List.length_map]
          omega
  obtain ⟨r, hrun, hr⟩ := runLoop_ok_of_measure (a_star_step adj g (fun _ _ => 0))
    _ _ _ hstep fuel ([((0 : ℤ), 0, s, [s])], [])
    (by
      constructor
      · intro e he
        rcases List.mem_singleton.mp he with rfl
        exact ⟨Relation.ReflTransGen.refl, hs, rfl⟩
      · intro p hp
        simp at hp)
    (by
      have := degSum_c_mono adj []
      simp only [List.length_singleton, akeys, List.map_nil]
      unfold fuelBound at hfuel
      omega)
  subst hr
  exact hrun

/-! ### C7: bidirectional BFS returns the sentinel

Each frontier only ever holds nodes weakly connected to its own root, and the
two roots lie in different weak components, so the early-exit intersection
check never fires and both queues drain. -/

theorem bb_scan_inl (adj : Adj) (root rootO : Nat) (isFront : Bool)
    (hwf : wellFormedB adj = true) (hnd : (akeys adj).Nodup)
    (hdisj : ∀ x, undConn adj root x → undConn adj rootO x → False) :
    ∀ (edges : List (Nat × ℤ)) (basePath : List Nat)
      (own other : List (Nat × List Nat)) (q : List Nat),
      (∀ p ∈ own, undConn adj root p.1 ∧ p.1 ∈ akeys adj) →
      (∀ e ∈ edges, undConn adj root e.1 ∧ e.1 ∈ akeys adj) →
      (∀ p ∈ other, undConn adj rootO p.1) →
      (∀ x ∈ q, x ∈ akeys own) →
      ∃ own2 q2, bb_scan isFront edges basePath own other q = .inl (own2, q2) ∧
        (∀ p ∈ own2, undConn adj root p.1 ∧ p.1 ∈ akeys adj) ∧
        (∀ x ∈ q2, x ∈ akeys own2) ∧
        (∀ y ∈ akeys own, y ∈ akeys own2) ∧
        q2.length + degSum adj (akeys own2) 1 ≤ q.length + degSum adj (akeys own) 1 := by
  intro edges
  induction edges with
  | nil =>
    intro basePath own other q hown hnew hother hq
    exact ⟨own, q, rfl, hown, hq, fun y hy => hy, le_refl _⟩
  | cons vw rest ih =>
    intro basePath own other q hown hnew hother hq
    rcases vw with ⟨v, w⟩
    have hv := hnew (v, w) (List.mem_cons_self _ _)
    by_cases hvk : v ∈ akeys own
    · obtain ⟨own2, q2, heq, h1, h2, h3, h4⟩ := ih basePath own other q hown
        (fun e he => hnew e (List.mem_cons_of_mem _ he)) hother hq
      refine ⟨own2, q2, ?_, h1, h2, h3, h4⟩
      simp only [bb_scan]
      rw [if_pos hvk]
      exact heq
    · rcases halo : alookup other v with _ | opath
      · obtain ⟨own2, q2, heq, h1, h2, h3, h4⟩ := ih basePath
          (aupdate own v (basePath ++ [v])) other (q ++ [v])
          (by
            intro p hp
            rcases mem_aupdate hp with hp2 | hp2
            · subst hp2
              exact ⟨hv.1, hv.2⟩
            · exact hown p hp2)
          (fun e he => hnew e (List.mem_cons_of_mem _ he)) hother
          (by
            intro x hx
            rcases List.mem_append.mp hx with hx2 | hx2
            · exact (mem_akeys_aupdate own v _ x).mpr (.inl (hq x hx2))
            · rw [List.mem_singleton.mp hx2]
              exact (mem_akeys_aupdate own v _ v).mpr (.inr rfl))
        refine ⟨own2, q2, ?_, h1, h2, ?_, ?_⟩
        · simp only [bb_scan]
          rw [if_neg hvk, halo]
          exact heq
        · intro y hy
          exact h3 y ((mem_akeys_aupdate own v _ y).mpr (.inl hy))
        · obtain ⟨es, hes⟩ := alookup_some_of_mem_akeys hv.2
          have hcong : degSum adj (akeys (aupdate own v (basePath ++ [v]))) 1 =
              degSum adj (v :: akeys own) 1 := by
            apply degSum_congr
            intro y
            rw [mem_akeys_aupdate]
            simp [List.mem_cons, or_comm]
          have hrem := degSum_remove adj (akeys own) 1 v es hnd hes hvk
          simp only [List.length_append, List.length_singleton] at h4 ⊢
          omega
      · exfalso
        have hmemo := alookup_mem _ _ _ halo
        exact hdisj v hv.1 (hother _ hmemo)

theorem bidirectional_bfs_sentinel (adj : Adj) (s g : Nat)
    (hwf : wellFormedB adj = true) (hnd : (akeys adj).Nodup)
    (hs : s ∈ akeys adj) (hg : g ∈ akeys adj) (hcross : ¬ undConn adj s g) :
    ∀ fuel, fuelBound adj < fuel → bidirectional_bfs fuel adj s g = .ok (none, none) := by
  intro fuel hfuel
  have hsg : s ≠ g := fun he => hcross (he ▸ Relation.ReflTransGen.refl)
  have hdisj : ∀ x, undConn adj s x → undConn adj g x → False :=
    fun x h1 h2 => hcross (h1.trans (undConn_symm h2))
  have hdisj2 : ∀ x, undConn adj g x → undConn adj s x → False :=
    fun x h1 h2 => hdisj x h2 h1
  have hstep : ∀ st : List (Nat × List Nat) × List (Nat × List Nat) × List Nat × List Nat,
      ((∀ p ∈ st.1, undConn adj s p.1 ∧ p.1 ∈ akeys adj) ∧
        (∀ p ∈ st.2.1, undConn adj g p.1 ∧ p.1 ∈ akeys adj) ∧
        (∀ x ∈ st.2.2.1, x ∈ akeys st.1) ∧ (∀ x ∈ st.2.2.2, x ∈ akeys st.2.1)) →
      (∃ r, bb_step adj st = .done r ∧ r = ((none, none) : SRes)) ∨
      (∃ st2, bb_step adj st = .next st2 ∧
        ((∀ p ∈ st2.1, undConn adj s p.1 ∧ p.1 ∈ akeys adj) ∧
          (∀ p ∈ st2.2.1, undConn adj g p.1 ∧ p.1 ∈ akeys adj) ∧
          (∀ x ∈ st2.2.2.1, x ∈ akeys st2.1) ∧ (∀ x ∈ st2.2.2.2, x ∈ akeys st2.2.1)) ∧
        st2.2.2.1.length + st2.2.2.2.length +
            degSum adj (akeys st2.1) 1 + degSum adj (akeys st2.2.1) 1 <
          st.2.2.1.length + st.2.2.2.length +
            degSum adj (akeys st.1) 1 + degSum adj (akeys st.2.1) 1) := by
    intro st hInv
    obtain ⟨hIf, hIb, hIqf, hIqb⟩ := hInv
    rcases st with ⟨front, back, qf, qb⟩
    cases qf with
    | nil => exact .inl ⟨(none, none), rfl, rfl⟩
    | cons nf qf2 =>
      cases qb with
      | nil => exact .inl ⟨(none, none), rfl, rfl⟩
      | cons nb qb2 =>
        have hnfk : nf ∈ akeys front := hIqf nf (List.mem_cons_self _ _)
        obtain ⟨basePathF, hbpF⟩ := alookup_some_of_mem_akeys hnfk
        have hnff := hIf _ (alookup_mem _ _ _ hbpF)
        obtain ⟨edgesF, hadjF⟩ := alookup_some_of_mem_akeys hnff.2
        have hedgesF : ∀ e ∈ edgesF, undConn adj s e.1 ∧ e.1 ∈ akeys adj := by
          intro e he
          have hedge : e ∈ edgesOf adj nf := by
            rw [edgesOf, hadjF]
            exact he
          rcases e with ⟨v, w⟩
          exact ⟨undConn_step hnff.1 hedge, wellFormedB_mem hwf hedge⟩
        obtain ⟨front2, qf3, hscanF, hfront2, hqf3, hmonoF, hmeasF⟩ :=
          bb_scan_inl adj s g true hwf hnd hdisj edgesF basePathF front back qf2
            hIf hedgesF (fun p hp => (hIb p hp).1)
            (fun x hx => hIqf x (List.mem_cons_of_mem _ hx))
        have hnbk : nb ∈ akeys back := hIqb nb (List.mem_cons_self _ _)
        obtain ⟨basePathB, hbpB⟩ := alookup_some_of_mem_akeys hnbk
        have hnbb := hIb _ (alookup_mem _ _ _ hbpB)
        obtain ⟨edgesB, hadjB⟩ := alookup_some_of_mem_akeys hnbb.2
        have hedgesB : ∀ e ∈ edgesB, undConn adj g e.1 ∧ e.1 ∈ akeys adj := by
          intro e he
          have hedge : e ∈ edgesOf adj nb := by
            rw [edgesOf, hadjB]
            exact he
          rcases e with ⟨v, w⟩
          exact ⟨undConn_step hnbb.1 hedge, wellFormedB_mem hwf hedge⟩
        obtain ⟨back2, qb3, hscanB, hback2, hqb3, hmonoB, hmeasB⟩ :=
          bb_scan_inl adj g s false hwf hnd hdisj2 edgesB basePathB back front2 qb2
            hIb hedgesB (fun p hp => (hfront2 p hp).1)
            (fun x hx => hIqb x (List.mem_cons_of_mem _ hx))
        right
        refine ⟨(front2, back2, qf3, qb3), ?_, ⟨hfront2, hback2, hqf3, hqb3⟩, ?_⟩
        · simp only [bb_step, hbpF, hadjF, hscanF, hbpB, hadjB, hscanB]
        · simp only [List.length_cons]
          omega
  obtain ⟨r, hrun, hr⟩ := runLoop_ok_of_measure (bb_step adj) _ _ _ hstep fuel
    ([(s, [s])], [(g, [g])], [s], [g])
    (by
      refine ⟨?_, ?_, ?_, ?_⟩
      · intro p hp
        rcases List.mem_singleton.mp hp with rfl
        exact ⟨Relation.ReflTransGen.refl, hs⟩
      · intro p hp
        rcases List.mem_singleton.mp hp with rfl
        exact ⟨Relation.ReflTransGen.refl, hg⟩
      · intro x hx
        rcases List.mem_singleton.mp hx with rfl
        simp [akeys]
      · intro x hx
        rcases List.mem_singleton.mp hx with rfl
        simp [akeys])
    (by
      have h1 : degSum adj (akeys [(s, [s])]) 1 ≤ degSum adj [] 1 := by
        simp only [akeys, List.map_cons, List.map_nil]
        exact degSum_mono_insert adj [] s 1
      have h2 : degSum adj (akeys [(g, [g])]) 1 ≤ degSum adj [] 1 := by
        simp only [akeys, List.map_cons, List.map_nil]
        exact degSum_mono_insert adj [] g 1
      simp only [List.length_singleton]
      unfold fuelBound at hfuel
      omega)
  subst hr
  simp only [bidirectional_bfs]
  rw [if_neg hsg]
  exact hrun

/-! ### C7: Bellman–Ford returns the sentinel

The distance table keeps exactly the graph's keys, and every finite entry
belongs to a node weakly connected to the start, so the goal's entry stays at
infinity and the function returns `(None, inf)` before any reconstruction. -/

theorem bf_inner_ok (adj : Adj) (s : Nat) (hwf : wellFormedB adj = true)
    (u : Nat) (hu : u ∈ akeys adj) :
    ∀ (edges : List (Nat × ℤ)), (∀ e ∈ edges, e ∈ edgesOf adj u) →
      ∀ (dist : List (Nat × Option ℤ)) (prev : List (Nat × Nat)) (upd : Bool),
      (∀ y, y ∈ akeys dist ↔ y ∈ akeys adj) →
      (∀ p ∈ dist, ∀ c : ℤ, p.2 = some c → undConn adj s p.1) →
      ∃ dist2 prev2 upd2,
        bf_inner u edges (dist, prev, upd) = .ok (dist2, prev2, upd2) ∧
        (∀ y, y ∈ akeys dist2 ↔ y ∈ akeys adj) ∧
        (∀ p ∈ dist2, ∀ c : ℤ, p.2 = some c → undConn adj s p.1) := by
  intro edges
  induction edges with
  | nil =>
    intro _ dist prev upd hkeys hconn
    exact ⟨dist, prev, upd, rfl, hkeys, hconn⟩
  | cons vw rest ih =>
    intro hedg dist prev upd hkeys hconn
    rcases vw with ⟨v, w⟩
    have hvw := hedg (v, w) (List.mem_cons_self _ _)
    have hvk : v ∈ akeys adj := wellFormedB_mem hwf hvw
    obtain ⟨du, hdu⟩ := alookup_some_of_mem_akeys ((hkeys u).mpr hu)
    obtain ⟨dv, hdv⟩ := alookup_some_of_mem_akeys ((hkeys v).mpr hvk)
    cases hcond : optLt (optAdd du w) dv with
    | false =>
      obtain ⟨dist2, prev2, upd2, heq, h1, h2⟩ := ih
        (fun e he => hedg e (List.mem_cons_of_mem _ he)) dist prev upd hkeys hconn
      refine ⟨dist2, prev2, upd2, ?_, h1, h2⟩
      simp only [bf_inner, hdu, hdv, hcond, Bool.false_eq_true, if_false]
      exact heq
    | true =>
      rcases du with _ | du
      · simp [optAdd, optLt] at hcond
      · have hus : undConn adj s u :=
          hconn (u, some du) (alookup_mem _ _ _ hdu) du rfl
        have hvs : undConn adj s v := undConn_step hus hvw
        obtain ⟨dist2, prev2, upd2, heq, h1, h2⟩ := ih
          (fun e he => hedg e (List.mem_cons_of_mem _ he))
          (aupdate dist v (optAdd (some du) w)) (aupdate prev v u) true
          (by
            intro y
            rw [mem_akeys_aupdate]
            constructor
            · intro h
              rcases h with h | h
              · exact (hkeys y).mp h
              · rw [h]
                exact hvk
            · intro h
              exact .inl ((hkeys y).mpr h))
          (by
            intro p hp c hc
            rcases mem_aupdate hp with hp2 | hp2
            · rw [hp2]
              exact hvs
            · exact hconn p hp2 c hc)
        refine ⟨dist2, prev2, upd2, ?_, h1, h2⟩
        simp only [bf_inner, hdu, hdv, hcond, if_true]
        exact heq

theorem bf_items_ok (adj : Adj) (s : Nat) (hwf : wellFormedB adj = true)
    (hnd : (akeys adj).Nodup) :
    ∀ (rest : Adj), (∀ q ∈ rest, q ∈ adj) →
      ∀ (dist : List (Nat × Option ℤ)) (prev : List (Nat × Nat)) (upd : Bool),
      (∀ y, y ∈ akeys dist ↔ y ∈ akeys adj) →
      (∀ p ∈ dist, ∀ c : ℤ, p.2 = some c → undConn adj s p.1) →
      ∃ dist2 prev2 upd2,
        bf_items rest (dist, prev, upd) = .ok (dist2, prev2, upd2) ∧
        (∀ y, y ∈ akeys dist2 ↔ y ∈ akeys adj) ∧
        (∀ p ∈ dist2, ∀ c : ℤ, p.2 = some c → undConn adj s p.1) := by
  intro rest
  induction rest with
  | nil =>
    intro _ dist prev upd hkeys hconn
    exact ⟨dist, prev, upd, rfl, hkeys, hconn⟩
  | cons q rest2 ih =>
    intro hsub dist prev upd hkeys hconn
    rcases q with ⟨u, edges⟩
    have hmem : (u, edges) ∈ adj := hsub (u, edges) (List.mem_cons_self _ _)
    have hu : u ∈ akeys adj := List.mem_map.mpr ⟨(u, edges), hmem, rfl⟩
    have hedg : ∀ e ∈ edges, e ∈ edgesOf adj u := by
      intro e he
      rw [edgesOf, alookup_of_mem_nodup hnd hmem]
      exact he
    obtain ⟨distA, prevA, updA, heqA, h1A, h2A⟩ :=
      bf_inner_ok adj s hwf u hu edges hedg dist prev upd hkeys hconn
    obtain ⟨dist2, prev2, upd2, heq2, h1, h2⟩ := ih
      (fun q hq => hsub q (List.mem_cons_of_mem _ hq)) distA prevA updA h1A h2A
    refine ⟨dist2, prev2, upd2, ?_, h1, h2⟩
    simp only [bf_items, heqA]
    exact heq2

theorem bf_passes_ok (adj : Adj) (s : Nat) (hwf : wellFormedB adj = true)
    (hnd : (akeys adj).Nodup) :
    ∀ (n : Nat) (dist : List (Nat × Option ℤ)) (prev : List (Nat × Nat)),
      (∀ y, y ∈ akeys dist ↔ y ∈ akeys adj) →
      (∀ p ∈ dist, ∀ c : ℤ, p.2 = some c → undConn adj s p.1) →
      ∃ dist2 prev2, bf_passes adj n (dist, prev) = .ok (dist2, prev2) ∧
        (∀ y, y ∈ akeys dist2 ↔ y ∈ akeys adj) ∧
        (∀ p ∈ dist2, ∀ c : ℤ, p.2 = some c → undConn adj s p.1) := by
  intro n
  induction n with
  | zero =>
    intro dist prev hkeys hconn
    exact ⟨dist, prev, rfl, hkeys, hconn⟩
  | succ m ih =>
    intro dist prev hkeys hconn
    obtain ⟨distA, prevA, updA, heqA, h1A, h2A⟩ :=
      bf_items_ok adj s hwf hnd adj (fun q hq => hq) dist prev false hkeys hconn
    cases updA with
    | false =>
      refine ⟨distA, prevA, ?_, h1A, h2A⟩
      simp only [bf_passes, heqA, Bool.false_eq_true, if_false]
    | true =>
      obtain ⟨dist2, prev2, heq2, h1, h2⟩ := ih distA prevA h1A h2A
      refine ⟨dist2, prev2, ?_, h1, h2⟩
      simp only [bf_passes, heqA, if_true]
      exact heq2

theorem bellman_ford_sentinel (adj : Adj) (s g : Nat)
    (hwf : wellFormedB adj = true) (hnd : (akeys adj).Nodup)
    (hs : s ∈ akeys adj) (hg : g ∈ akeys adj) (hcross : ¬ undConn adj s g) :
    ∀ fuel, bellman_ford fuel adj s g = .ok (none, none) := by
  intro fuel
  have hkeys0 : ∀ y, y ∈ akeys (aupdate
      ((akeys adj).map (fun u => (u, (none : Option ℤ)))) s (some 0)) ↔
      y ∈ akeys adj := by
    intro y
    rw [mem_akeys_aupdate]
    have hbase : akeys ((akeys adj).map (fun u => (u, (none : Option ℤ)))) =
        akeys adj := by
      simp [akeys, List.map_map, Function.comp]
    rw [hbase]
    constructor
    · intro h
      rcases h with h | h
      · exact h
      · rw [h]
        exact hs
    · exact .inl
  have hconn0 : ∀ p ∈ aupdate
      ((akeys adj).map (fun u => (u, (none : Option ℤ)))) s (some 0),
      ∀ c : ℤ, p.2 = some c → undConn adj s p.1 := by
    intro p hp c hc
    rcases mem_aupdate hp with hp2 | hp2
    · rw [hp2]
      exact Relation.ReflTransGen.refl
    · rcases List.mem_map.mp hp2 with ⟨u, _, hu2⟩
      rw [← hu2] at hc
      exact absurd hc (by simp)
  obtain ⟨dist2, prev2, heq2, h1, h2⟩ :=
    bf_passes_ok adj s hwf hnd ((akeys adj).length - 1)
      (aupdate ((akeys adj).map (fun u => (u, (none : Option ℤ)))) s (some 0)) []
      hkeys0 hconn0
  obtain ⟨dg, hdg⟩ := alookup_some_of_mem_akeys ((h1 g).mpr hg)
  rcases dg with _ | c
  · simp only [bellman_ford, heq2, hdg]
  · exact absurd (h2 (g, some c) (alookup_mem _ _ _ hdg) c rfl) hcross

/-! ### C7: the weak-component map separates `s` and `g`

`build_und` only records genuine undirected adjacencies between graph keys,
the flood fill labels exactly one weak component per fresh id, and the seed
loop labels every key, so `_reachable` on the preprocessed index answers
`false` for a cross-component pair. -/

/-- Soundness of the undirected adjacency map built by `build_und`: every
listed neighbor is a real undirected neighbor and a key of the graph. -/
def undProp (adj : Adj) (und : List (Nat × List Nat)) : Prop :=
  ∀ p ∈ und, ∀ y ∈ p.2, undAdjB adj p.1 y = true ∧ y ∈ akeys adj

theorem und_add_pres {adj : Adj} {und : List (Nat × List Nat)} {a b : Nat}
    (h : undProp adj und) (hab : undAdjB adj a b = true) (hb : b ∈ akeys adj) :
    undProp adj (und_add und a b) := by
  unfold und_add
  rcases halo : alookup und a with _ | l
  · intro p hp y hy
    rcases List.mem_append.mp hp with hp2 | hp2
    · exact h p hp2 y hy
    · rw [List.mem_singleton.mp hp2] at hy ⊢
      rw [List.mem_singleton.mp hy]
      exact ⟨hab, hb⟩
  · intro p hp y hy
    rcases mem_aupdate hp with hp2 | hp2
    · rw [hp2] at hy ⊢
      rcases List.mem_append.mp hy with hy2 | hy2
      · exact h (a, l) (alookup_mem _ _ _ halo) y hy2
      · rw [List.mem_singleton.mp hy2]
        exact ⟨hab, hb⟩
    · exact h p hp2 y hy

theorem build_und_sound (adj : Adj) (hwf : wellFormedB adj = true)
    (hnd : (akeys adj).Nodup) : undProp adj (build_und adj) := by
  unfold build_und
  apply foldl_preserve (undProp adj)
  · intro p hp y hy
    simp at hp
  · intro und ue hue hP
    apply foldl_preserve (undProp adj)
    · exact hP
    · intro und2 e he hP2
      have hedge : (e.1, e.2) ∈ edgesOf adj ue.1 := by
        rw [edgesOf, alookup_of_mem_nodup hnd hue]
        exact he
      have hv : e.1 ∈ akeys adj := wellFormedB_mem hwf hedge
      have hu : ue.1 ∈ akeys adj := List.mem_map.mpr ⟨ue, hue, rfl⟩
      have hab : undAdjB adj ue.1 e.1 = true := undAdjB_of_edge hedge
      exact und_add_pres (und_add_pres hP2 hab hv)
        (by rw [undAdjB_symm]; exact hab) hu

/-- Number of graph keys not yet labelled by the component map. -/
def unlabeled (keys : List Nat) (comp : List (Nat × Nat)) : Nat :=
  (keys.filter (fun x => (alookup comp x).isNone)).length

theorem unlabeled_le_length (keys : List Nat) (comp : List (Nat × Nat)) :
    unlabeled keys comp ≤ keys.length :=
  List.length_filter_le _ _

theorem unlabeled_aupdate_le (comp : List (Nat × Nat)) (y c : Nat) :
    ∀ keys, unlabeled keys (aupdate comp y c) ≤ unlabeled keys comp := by
  intro keys
  induction keys with
  | nil => simp [unlabeled]
  | cons k rest ih =>
    simp only [unlabeled, List.filter_cons] at ih ⊢
    by_cases hk : k = y
    · rw [hk, alookup_aupdate_self]
      rw [if_neg (by simp)]
      by_cases hc : (alookup comp y).isNone = true
      · rw [if_pos hc]
        simp only [List.length_cons]
        omega
      · rw [if_neg hc]
        exact ih
    · rw [alookup_aupdate_ne comp y k c hk]
      by_cases hc : (alookup comp k).isNone = true
      · rw [if_pos hc, if_pos hc]
        simp only [List.length_cons]
        omega
      · rw [if_neg hc, if_neg hc]
        exact ih

theorem unlabeled_aupdate_lt (comp : List (Nat × Nat)) (y c : Nat)
    (hy : alookup comp y = none) :
    ∀ keys, y ∈ keys → unlabeled keys (aupdate comp y c) < unlabeled keys comp := by
  intro keys
  induction keys with
  | nil => simp
  | cons k rest ih =>
    intro hmem
    simp only [unlabeled, List.filter_cons]
    by_cases hk : k = y
    · rw [hk, alookup_aupdate_self, hy]
      rw [if_neg (by simp), if_pos (by simp)]
      simp only [List.length_cons]
      have := unlabeled_aupdate_le comp y c rest
      simp only [unlabeled] at this
      omega
    · rw [alookup_aupdate_ne comp y k c hk]
      have hyz : y ∈ rest := by
        rcases List.mem_cons.mp hmem with h | h
        · exact absurd h.symm hk
        · exact h
      have := ih hyz
      simp only [unlabeled] at this
      by_cases hc : (alookup comp k).isNone = true
      · rw [if_pos hc, if_pos hc]
        simp only [List.length_cons]
        omega
      · rw [if_neg hc, if_neg hc]
        exact this

theorem wc_fold_ok (adj : Adj) (und : List (Nat × List Nat)) (r cid : Nat)
    (comp0 : List (Nat × Nat)) :
    ∀ (l : List Nat) (comp : List (Nat × Nat)) (q : List Nat),
      (∀ y ∈ l, undConn adj r y ∧ y ∈ akeys adj) →
      (∀ p ∈ comp, p ∈ comp0 ∨ (p.2 = cid ∧ undConn adj r p.1)) →
      (∀ z ∈ q, undConn adj r z) →
      ∃ comp2 q2, l.foldl (fun (st : List (Nat × Nat) × List Nat) y =>
          match alookup st.1 y with
          | some _ => st
          | none => (aupdate st.1 y cid, st.2 ++ [y])) (comp, q) = (comp2, q2) ∧
        (∀ p ∈ comp2, p ∈ comp0 ∨ (p.2 = cid ∧ undConn adj r p.1)) ∧
        (∀ z ∈ q2, undConn adj r z) ∧
        (∀ z c, alookup comp z = some c → alookup comp2 z = some c) ∧
        q2.length + unlabeled (akeys adj) comp2 ≤
          q.length + unlabeled (akeys adj) comp := by
  intro l
  induction l with
  | nil =>
    intro comp q _ hA hB
    exact ⟨comp, q, rfl, hA, hB, fun z c h => h, le_refl _⟩
  | cons y rest ih =>
    intro comp q hl hA hB
    have hy := hl y (List.mem_cons_self _ _)
    rcases hlook : alookup comp y with _ | c0
    · obtain ⟨comp2, q2, heq, h1, h2, h3, h4⟩ := ih (aupdate comp y cid) (q ++ [y])
        (fun z hz => hl z (List.mem_cons_of_mem _ hz))
        (by
          intro p hp
          rcases mem_aupdate hp with hp2 | hp2
          · rw [hp2]
            exact .inr ⟨rfl, hy.1⟩
          · exact hA p hp2)
        (by
          intro z hz
          rcases List.mem_append.mp hz with hz2 | hz2
          · exact hB z hz2
          · rw [List.mem_singleton.mp hz2]
            exact hy.1)
      refine ⟨comp2, q2, ?_, h1, h2, ?_, ?_⟩
      · simp only [List.foldl_cons, hlook]
        exact heq
      · intro z c hz
        have hzy : z ≠ y := by
          intro he
          rw [he, hlook] at hz
          exact Option.noConfusion hz
        exact h3 z c (by rw [alookup_aupdate_ne comp y z cid hzy]; exact hz)
      · have hdec := unlabeled_aupdate_lt comp y cid hlook (akeys adj) hy.2
        simp only [List.length_append, List.length_singleton] at h4 ⊢
        omega
    · obtain ⟨comp2, q2, heq, h1, h2, h3, h4⟩ := ih comp q
        (fun z hz => hl z (List.mem_cons_of_mem _ hz)) hA hB
      refine ⟨comp2, q2, ?_, h1, h2, h3, h4⟩
      simp only [List.foldl_cons, hlook]
      exact heq

theorem wc_flood_ok (adj : Adj) (und : List (Nat × List Nat))
    (hund : undProp adj und) (r cid : Nat) (comp0 : List (Nat × Nat)) :
    ∀ fuel, (akeys adj).length + 1 < fuel →
    ∃ comp2, runLoop (wc_step und cid) fuel (aupdate comp0 r cid, [r]) = .ok comp2 ∧
      (∀ p ∈ comp2, p ∈ comp0 ∨ (p.2 = cid ∧ undConn adj r p.1)) ∧
      (∀ z c, alookup (aupdate comp0 r cid) z = some c → alookup comp2 z = some c) := by
  intro fuel hfuel
  have hstep : ∀ st : List (Nat × Nat) × List Nat,
      ((∀ p ∈ st.1, p ∈ comp0 ∨ (p.2 = cid ∧ undConn adj r p.1)) ∧
        (∀ z ∈ st.2, undConn adj r z) ∧
        (∀ z c, alookup (aupdate comp0 r cid) z = some c →
          alookup st.1 z = some c)) →
      (∃ res, wc_step und cid st = .done res ∧
        ((∀ p ∈ res, p ∈ comp0 ∨ (p.2 = cid ∧ undConn adj r p.1)) ∧
          (∀ z c, alookup (aupdate comp0 r cid) z = some c →
            alookup res z = some c))) ∨
      (∃ st2, wc_step und cid st = .next st2 ∧
        ((∀ p ∈ st2.1, p ∈ comp0 ∨ (p.2 = cid ∧ undConn adj r p.1)) ∧
          (∀ z ∈ st2.2, undConn adj r z) ∧
          (∀ z c, alookup (aupdate comp0 r cid) z = some c →
            alookup st2.1 z = some c)) ∧
        st2.2.length + unlabeled (akeys adj) st2.1 <
          st.2.length + unlabeled (akeys adj) st.1) := by
    intro st hInv
    obtain ⟨hA, hB, hM⟩ := hInv
    rcases st with ⟨comp, q⟩
    cases q with
    | nil => exact .inl ⟨comp, rfl, hA, hM⟩
    | cons x q2 =>
      have hx : undConn adj r x := hB x (List.mem_cons_self _ _)
      have hl : ∀ y ∈ (alookup und x).getD [], undConn adj r y ∧ y ∈ akeys adj := by
        intro y hy
        rcases hlu : alookup und x with _ | l
        · rw [hlu] at hy
          simp at hy
        · rw [hlu] at hy
          have := hund (x, l) (alookup_mem _ _ _ hlu) y hy
          exact ⟨Relation.ReflTransGen.tail hx this.1, this.2⟩
      obtain ⟨comp2, q3, heq, h1, h2, h3, h4⟩ := wc_fold_ok adj und r cid comp0
        ((alookup und x).getD []) comp q2 hl hA
        (fun z hz => hB z (List.mem_cons_of_mem _ hz))
      right
      refine ⟨(comp2, q3), ?_, ⟨h1, h2, fun z c hz => h3 z c (hM z c hz)⟩, ?_⟩
      · simp only [wc_step, heq]
      · simp only [List.length_cons]
        omega
  obtain ⟨comp2, hrun, hpost⟩ := runLoop_ok_of_measure (wc_step und cid) _ _ _ hstep
    fuel (aupdate comp0 r cid, [r])
    (by
      refine ⟨?_, ?_, fun z c h => h⟩
      · intro p hp
        rcases mem_aupdate hp with hp2 | hp2
        · rw [hp2]
          exact .inr ⟨rfl, Relation.ReflTransGen.refl⟩
        · exact .inl hp2
      · intro z hz
        rw [List.mem_singleton.mp hz]
        exact Relation.ReflTransGen.refl)
    (by
      have := unlabeled_le_length (akeys adj) (aupdate comp0 r cid)
      simp only [List.length_singleton]
      omega)
  exact ⟨comp2, hrun, hpost.1, hpost.2⟩

theorem wc_seed_ok (adj : Adj) (und : List (Nat × List Nat))
    (hund : undProp adj und) (fuel : Nat)
    (hfuel : (akeys adj).length + 1 < fuel) :
    ∀ (seeds : List Nat) (comp : List (Nat × Nat)) (cid : Nat),
      (∀ p ∈ comp, p.2 ≤ cid) →
      (∀ p p', p ∈ comp → p' ∈ comp → p.2 = p'.2 → undConn adj p.1 p'.1) →
      ∃ comp2 cid2, wc_seed_loop und fuel seeds (comp, cid) = .ok comp2 ∧
        (∀ z c, alookup comp z = some c → alookup comp2 z = some c) ∧
        (∀ x ∈ seeds, (alookup comp2 x).isSome = true) ∧
        (∀ p ∈ comp2, p.2 ≤ cid2) ∧
        (∀ p p', p ∈ comp2 → p' ∈ comp2 → p.2 = p'.2 → undConn adj p.1 p'.1) := by
  intro seeds
  induction seeds with
  | nil =>
    intro comp cid hI1 hI2
    exact ⟨comp, cid, rfl, fun z c h => h, by simp, hI1, hI2⟩
  | cons x rest ih =>
    intro comp cid hI1 hI2
    rcases hlook : alookup comp x with _ | c0
    · obtain ⟨compF, hflood, hAF, hMF⟩ :=
        wc_flood_ok adj und hund x (cid + 1) comp fuel hfuel
      have hI1F : ∀ p ∈ compF, p.2 ≤ cid + 1 := by
        intro p hp
        rcases hAF p hp with h | h
        · exact Nat.le_succ_of_le (hI1 p h)
        · omega
      have hI2F : ∀ p p', p ∈ compF → p' ∈ compF → p.2 = p'.2 →
          undConn adj p.1 p'.1 := by
        intro p p' hp hp' he
        rcases hAF p hp with h | h <;> rcases hAF p' hp' with h' | h'
        · exact hI2 p p' h h' he
        · exfalso
          have h1 := hI1 p h
          have h2 := h'.1
          omega
        · exfalso
          have h1 := hI1 p' h'
          have h2 := h.1
          omega
        · exact (undConn_symm h.2).trans h'.2
      obtain ⟨comp2, cid2, heq2, hmono2, htot2, hI1f, hI2f⟩ :=
        ih compF (cid + 1) hI1F hI2F
      refine ⟨comp2, cid2, ?_, ?_, ?_, hI1f, hI2f⟩
      · simp only [wc_seed_loop, hlook, hflood]
        exact heq2
      · intro z c hz
        have hzx : z ≠ x := by
          intro he
          rw [he, hlook] at hz
          exact Option.noConfusion hz
        exact hmono2 z c (hMF z c
          (by rw [alookup_aupdate_ne comp x z (cid + 1) hzx]; exact hz))
      · intro y hy
        rcases List.mem_cons.mp hy with hy2 | hy2
        · rw [hy2]
          have := hmono2 x (cid + 1) (hMF x (cid + 1) (alookup_aupdate_self _ _ _))
          rw [this]
          rfl
        · exact htot2 y hy2
    · obtain ⟨comp2, cid2, heq2, hmono2, htot2, hI1f, hI2f⟩ :=
        ih comp cid hI1 hI2
      refine ⟨comp2, cid2, ?_, hmono2, ?_, hI1f, hI2f⟩
      · simp only [wc_seed_loop, hlook]
        exact heq2
      · intro y hy
        rcases List.mem_cons.mp hy with hy2 | hy2
        · rw [hy2, hmono2 x c0 hlook]
          rfl
        · exact htot2 y hy2

theorem length_akeys_le_degSum (adj : Adj) :
    (akeys adj).length ≤ degSum adj [] 1 := by
  induction adj with
  | nil => simp [akeys, degSum]
  | cons ue rest ih =>
    simp only [akeys, List.map_cons, List.length_cons]
    simp only [degSum, List.filter_cons]
    rw [if_pos (by simp)]
    simp only [List.map_cons, List.sum_cons]
    simp only [akeys, degSum] at ih
    omega

theorem wc_components_separate (adj : Adj) (s g : Nat)
    (hwf : wellFormedB adj = true) (hnd : (akeys adj).Nodup)
    (hs : s ∈ akeys adj) (hg : g ∈ akeys adj) (hcross : ¬ undConn adj s g) :
    ∀ fuel, fuelBound adj < fuel →
    ∃ comp, _build_weak_components fuel adj = .ok comp ∧ comp ≠ [] ∧
      alookup comp s ≠ alookup comp g := by
  intro fuel hfuel
  have hfuel2 : (akeys adj).length + 1 < fuel := by
    have h1 := length_akeys_le_degSum adj
    unfold fuelBound at hfuel
    omega
  obtain ⟨comp2, cid2, heq, _, htot, _, hI2⟩ :=
    wc_seed_ok adj (build_und adj) (build_und_sound adj hwf hnd) fuel hfuel2
      (akeys adj) [] 0 (by simp) (by simp)
  obtain ⟨cs, hcs⟩ := Option.isSome_iff_exists.mp (htot s hs)
  obtain ⟨cg, hcg⟩ := Option.isSome_iff_exists.mp (htot g hg)
  refine ⟨comp2, heq, ?_, ?_⟩
  · intro he
    rw [he] at hcs
    simp [alookup] at hcs
  · intro he
    rw [hcs, hcg] at he
    have hcc : cs = cg := Option.some.inj he
    exact hcross (hI2 (s, cs) (g, cg) (alookup_mem _ _ _ hcs)
      (alookup_mem _ _ _ hcg) (by simp [hcc]))

theorem reachable_false_of_fields (idx : Index) (comp : List (Nat × Nat)) (s g : Nat)
    (hw : idx.weight_map.isSome = true) (hc : idx.weak_components = some comp)
    (hne : comp ≠ []) (hlu : alookup comp s ≠ alookup comp g) :
    _reachable (some idx) s g = false := by
  have hie : idx.isEmpty = false := by
    unfold Index.isEmpty
    rcases hwm : idx.weight_map with _ | wm
    · rw [hwm] at hw
      simp at hw
    · simp
  have hcie : comp.isEmpty = false := by
    cases comp
    · exact absurd rfl hne
    · rfl
  simp only [_reachable, hc, Option.getD_some]
  rw [if_neg (by simp [hie]), if_neg (by simp [hcie])]
  exact decide_eq_false hlu

theorem preprocess_fields (fuel : Nat) (adj : Adj) (idx : Index)
    (h : preprocess_index fuel adj false = .ok idx) :
    ∃ comp, _build_weak_components fuel adj = .ok comp ∧
      idx.weak_components = some comp ∧ idx.weight_map.isSome = true := by
  unfold preprocess_index at h
  simp only [Bool.false_eq_true, if_false] at h
  cases hwc : _build_weak_components fuel adj with
  | error e =>
    rw [hwc] at h
    exact Except.noConfusion h
  | ok comp =>
    rw [hwc] at h
    refine ⟨comp, rfl, ?_⟩
    split at h
    · exact Except.noConfusion h
    · rename_i comp2 heq
      have hc2 : comp2 = comp := (Except.ok.inj heq).symm
      subst hc2
      split at h
      · split at h
        · exact Except.noConfusion h
        · split at h
          · exact Except.noConfusion h
          · have := Except.ok.inj h
            rw [← this]
            exact ⟨rfl, rfl⟩
      · have := Except.ok.inj h
        rw [← this]
        exact ⟨rfl, rfl⟩

/-- C7: for every well-formed graph (all edge targets are keys, no duplicate
keys, non-negative weights) and every pair `(s, g)` of keys in different weak
components (no undirected, hence no directed, path), all eight search
algorithms — `greedy_best` under any heuristic and `a_star` under its default
zero heuristic — return the sentinel `(None, float("inf"))`, and `_reachable`
on any index preprocessed from the graph reports `false` for `(s, g)`. -/
theorem C7_cross_component_sentinel (adj : Adj) (s g : Nat) (fuel : Nat)
    (hwf : wellFormedB adj = true) (hnn : nonnegB adj = true)
    (hnd : (akeys adj).Nodup) (hs : s ∈ akeys adj) (hg : g ∈ akeys adj)
    (hcross : ¬ undConn adj s g) (hfuel : fuelBound adj < fuel) :
    bfs fuel adj s g = .ok (none, none) ∧
    dfs fuel adj s g = .ok (none, none) ∧
    dijkstra fuel adj s g = .ok (none, none) ∧
    (∀ hz : Nat → Nat → ℤ, greedy_best fuel adj s g hz = .ok (none, none)) ∧
    a_star fuel adj s g (fun _ _ => 0) = .ok (none, none) ∧
    bidirectional_bfs fuel adj s g = .ok (none, none) ∧
    bidirectional_dijkstra fuel adj s g = .ok (none, none) ∧
    bellman_ford fuel adj s g = .ok (none, none) ∧
    (∀ f2 idx, fuelBound adj < f2 → preprocess_index f2 adj false = .ok idx →
      _reachable (some idx) s g = false) := by
  refine ⟨bfs_sentinel adj s g hwf hnd hs hcross fuel hfuel,
    dfs_sentinel adj s g hwf hnd hs hcross fuel hfuel,
    dijkstra_sentinel adj s g hwf hnn hnd hs hcross fuel hfuel,
    fun hz => greedy_sentinel adj s g hz hwf hnd hs hcross fuel hfuel,
    a_star_sentinel adj s g hwf hnn hnd hs hcross fuel hfuel,
    bidirectional_bfs_sentinel adj s g hwf hnd hs hg hcross fuel hfuel,
    dijkstra_sentinel adj s g hwf hnn hnd hs hcross fuel hfuel,
    bellman_ford_sentinel adj s g hwf hnd hs hg hcross fuel, ?_⟩
  intro f2 idx hf2 hpre
  obtain ⟨comp, hwc, hfieldc, hfieldw⟩ := preprocess_fields f2 adj idx hpre
  obtain ⟨comp2, hwc2, hne, hlu⟩ :=
    wc_components_separate adj s g hwf hnd hs hg hcross f2 hf2
  rw [hwc] at hwc2
  have hcc : comp = comp2 := Except.ok.inj hwc2
  rw [hcc] at hfieldc
  exact reachable_false_of_fields idx comp2 s g hfieldw hfieldc hne hlu

/-- A graph whose edge `0 → 1` mentions the non-key node `1`: weak-component
preprocessing separates `0` from `3`, yet `bfs` raises `KeyError` on
`adj[1]` instead of returning the sentinel. -/
def adjM7 : Adj := [(0, [(1, 1)]), (2, [(3, 1)]), (3, [])]

/-- C7 counterexample: on a malformed graph the weak-component map puts `0`
and `3` in different components, but `bfs(adj, 0, 3)` raises `KeyError`
rather than returning `(None, float("inf"))`. -/
theorem C7_counterexample :
    (preprocess_index 100 adjM7 false).map
        (fun i => decide (alookup (i.weak_components.getD []) 0 =
          alookup (i.weak_components.getD []) 3)) = .ok false ∧
    bfs 1000 adjM7 0 3 = .error .keyError :=
  ⟨rfl, rfl⟩

/-- Every node a single undirected step away from `a` is either an edge
target recorded in `allTargets` or a key of the graph. -/
def allTargets (adj : Adj) : List Nat :=
  adj.foldl (fun acc ue => acc ++ ue.2.map Prod.fst) []

theorem mem_allTargets_aux (f : List Nat → Nat × List (Nat × ℤ) → List Nat)
    (hf : ∀ acc ue, f acc ue = acc ++ ue.2.map Prod.fst) :
    ∀ (l : Adj) (acc : List Nat) (x : Nat),
      (x ∈ acc ∨ ∃ ue ∈ l, ∃ e ∈ ue.2, e.1 = x) → x ∈ l.foldl f acc := by
  intro l
  induction l with
  | nil =>
    intro acc x hx
    rcases hx with hx | ⟨ue, hue, _⟩
    · exact hx
    · simp at hue
  | cons ue rest ih =>
    intro acc x hx
    simp only [List.foldl_cons]
    apply ih
    rcases hx with hx | ⟨ue2, hue2, e, he, hex⟩
    · left
      rw [hf]
      exact List.mem_append.mpr (.inl hx)
    · rcases List.mem_cons.mp hue2 with h | h
      · left
        rw [hf, ← h]
        exact List.mem_append.mpr (.inr (List.mem_map.mpr ⟨e, he, hex⟩))
      · exact .inr ⟨ue2, h, e, he, hex⟩

theorem undAdjB_target {adj : Adj} {a b : Nat} (h : undAdjB adj a b = true) :
    b ∈ akeys adj ++ allTargets adj := by
  simp only [undAdjB, Bool.or_eq_true, List.any_eq_true] at h
  rcases h with ⟨e, he, heb⟩ | ⟨e, he, _⟩
  · apply List.mem_append.mpr
    right
    unfold allTargets
    apply mem_allTargets_aux _ (fun _ _ => rfl)
    right
    simp only [edgesOf] at he
    rcases hlo : alookup adj a with _ | es
    · rw [hlo] at he
      simp at he
    · rw [hlo] at he
      exact ⟨(a, es), alookup_mem _ _ _ hlo, e, he, by simpa using heb⟩
  · apply List.mem_append.mpr
    left
    rw [← alookup_isSome_iff_mem_akeys]
    simp only [edgesOf] at he
    rcases hlo : alookup adj b with _ | es
    · rw [hlo] at he
      simp at he
    · rfl

theorem undConn_closed (adj : Adj) (S : List Nat)
    (hcl : ∀ a ∈ S, ∀ b ∈ akeys adj ++ allTargets adj,
      undAdjB adj a b = true → b ∈ S) :
    ∀ x y, x ∈ S → undConn adj x y → y ∈ S := by
  intro x y hx h
  induction h with
  | refl => exact hx
  | tail h1 h2 ih => exact hcl _ ih _ (undAdjB_target h2) h2

/-- A well-formed two-component graph: `{0, 1}` and `{2, 3}`. -/
def adjW : Adj := [(0, [(1, 1)]), (1, []), (2, [(3, 1)]), (3, [])]

theorem adjW_not_undConn : ¬ undConn adjW 0 3 := by
  intro h
  have h3 : (3 : Nat) ∈ ([0, 1] : List Nat) :=
    undConn_closed adjW [0, 1] (by decide) 0 3 (by decide) h
  simp at h3

theorem C7_witness :
    fuelBound adjW < 100 ∧
    (bfs 100 adjW 0 3 = .ok (none, none) ∧
      dfs 100 adjW 0 3 = .ok (none, none) ∧
      dijkstra 100 adjW 0 3 = .ok (none, none) ∧
      (∀ hz : Nat → Nat → ℤ, greedy_best 100 adjW 0 3 hz = .ok (none, none)) ∧
      a_star 100 adjW 0 3 (fun _ _ => 0) = .ok (none, none) ∧
      bidirectional_bfs 100 adjW 0 3 = .ok (none, none) ∧
      bidirectional_dijkstra 100 adjW 0 3 = .ok (none, none) ∧
      bellman_ford 100 adjW 0 3 = .ok (none, none) ∧
      (∀ f2 idx, fuelBound adjW < f2 → preprocess_index f2 adjW false = .ok idx →
        _reachable (some idx) 0 3 = false)) :=
  ⟨by decide,
    C7_cross_component_sentinel adjW 0 3 100 (by decide) (by decide) (by decide)
      (by decide) (by decide) adjW_not_undConn (by decide)⟩

end AnalyzeThing
